import Mathlib

/-!
Verification of the unisearch repository's core data-processing functions.

The development shallowly embeds, over `List Char` / `String`, `ℤ` and `ℚ`:

* `data_pipeline/processors/data_cleaner.py`: `clean_university_name`,
  `clean_country_name`, `clean_city_name`, `_parse_ranking`, `_parse_score`,
  `_merge_duplicate_rows`;
* `backend/google_sheets_integration.py`: `standardize_university_name`,
  `find_university_matches`, `clean_qs_rank`, `merge_data_sources`;
* `app/routes/recommendations.py`: `RecommendationEngine.calculate_match_score`.

Python string/regex behaviour (`str.strip`, `str.title`, `str.capitalize`,
`str.split`, `int()`, `float()`, `re.sub` of the concrete patterns appearing
in the source, with `re.IGNORECASE` where the source passes it) is modelled
character-by-character on ASCII data.  The `thefuzz` similarity measures are
an external, unpinned library dependency, not code of this repository; they
are modelled as an opaque parameter pack (`SimFns`) of four string-similarity
functions, which is how the spec's design notes describe them as well.
-/

/-- ASCII lower-casing of one character (Python `str.lower` on ASCII data). -/
def lowChar (c : Char) : Char :=
  if 'A' ≤ c ∧ c ≤ 'Z' then Char.ofNat (c.toNat + 32) else c

/-- ASCII upper-casing of one character (Python `str.upper` on ASCII data). -/
def upChar (c : Char) : Char :=
  if 'a' ≤ c ∧ c ≤ 'z' then Char.ofNat (c.toNat - 32) else c

/-- The regex class `\s` (ASCII): space, tab, newline, CR, FF, VT. -/
def isSpaceCh (c : Char) : Bool :=
  c = ' ' ∨ c = Char.ofNat 9 ∨ c = Char.ofNat 10 ∨ c = Char.ofNat 13 ∨
    c = Char.ofNat 12 ∨ c = Char.ofNat 11

/-- The regex class `\d` (ASCII digits). -/
def isDigitCh (c : Char) : Bool := '0' ≤ c ∧ c ≤ '9'

/-- ASCII letter. -/
def isAlphaCh (c : Char) : Bool := ('a' ≤ c ∧ c ≤ 'z') ∨ ('A' ≤ c ∧ c ≤ 'Z')

/-- The regex class `[A-Z]`. -/
def isUpperCh (c : Char) : Bool := 'A' ≤ c ∧ c ≤ 'Z'

/-- The regex class `\w` (ASCII): letters, digits and underscore. -/
def isWordCh (c : Char) : Bool := isAlphaCh c ∨ isDigitCh c ∨ c = Char.ofNat 95

/-- The apostrophe character (used by the `Int'l` / `Nat'l` patterns). -/
def apoChar : Char := Char.ofNat 39

/-- Python `str.strip()`: drop whitespace from both ends. -/
def pyStrip (l : List Char) : List Char :=
  ((l.dropWhile isSpaceCh).reverse.dropWhile isSpaceCh).reverse

/-- `re.sub(r'\s+', ' ', ·)`: collapse every whitespace run to one space. -/
def wsCollapseGo : Bool → List Char → List Char
  | _, [] => []
  | prevSpace, c :: rest =>
    if isSpaceCh c then
      if prevSpace then wsCollapseGo true rest else ' ' :: wsCollapseGo true rest
    else c :: wsCollapseGo false rest

def wsCollapse (l : List Char) : List Char := wsCollapseGo false l

/-- Python `str.title()` on ASCII data: a letter is upper-cased when the
preceding character is not a letter, lower-cased otherwise. -/
def pyTitleGo : Bool → List Char → List Char
  | _, [] => []
  | prevAlpha, c :: rest =>
    if isAlphaCh c then
      (if prevAlpha then lowChar c else upChar c) :: pyTitleGo true rest
    else c :: pyTitleGo false rest

def pyTitle (l : List Char) : List Char := pyTitleGo false l

/-- Python `str.capitalize()`: upper-case the first character, lower-case
the rest. -/
def pyCapitalize : List Char → List Char
  | [] => []
  | c :: rest => upChar c :: rest.map lowChar

/-- Python `str.split()` with no argument: split on whitespace runs,
producing no empty words. -/
def pySplitGo (cur : List Char) : List Char → List (List Char)
  | [] => if cur.isEmpty then [] else [cur.reverse]
  | c :: rest =>
    if isSpaceCh c then
      if cur.isEmpty then pySplitGo [] rest else cur.reverse :: pySplitGo [] rest
    else pySplitGo (c :: cur) rest

def pySplit (l : List Char) : List (List Char) := pySplitGo [] l

/-- `' '.join(·)`. -/
def joinSpace : List (List Char) → List Char
  | [] => []
  | [w] => w
  | w :: ws => w ++ ' ' :: joinSpace ws

/-- Lower-case a whole list (Python `str.lower()`). -/
def lowList (l : List Char) : List Char := l.map lowChar

/-- `leadsWith pat l`: `l` starts with `pat`. -/
def leadsWith : List Char → List Char → Bool
  | [], _ => true
  | _ :: _, [] => false
  | p :: ps, c :: cs => p = c ∧ leadsWith ps cs

/-- `containsSeq needle haystack`: Python's `needle in haystack`
(contiguous-substring containment). -/
def containsSeq (needle : List Char) : List Char → Bool
  | [] => needle.isEmpty
  | c :: cs => leadsWith needle (c :: cs) ∨ containsSeq needle cs

/-- Numeric value of a list of ASCII digits. -/
def digitsToNat (l : List Char) : Nat :=
  l.foldl (fun a c => a * 10 + (c.toNat - 48)) 0

/-- First match of the regex `\d+`: the first maximal digit run, if any. -/
def findDigitRun : List Char → Option (List Char)
  | [] => none
  | c :: rest =>
    if isDigitCh c then some (c :: rest.takeWhile isDigitCh) else findDigitRun rest

/-- First match of the regex `\d+\.?\d*` (used by `_parse_score`). -/
def findNumRun : List Char → Option (List Char)
  | [] => none
  | c :: rest =>
    if isDigitCh c then
      let ds := rest.takeWhile isDigitCh
      let rest2 := rest.drop ds.length
      some (c :: ds ++
        (match rest2 with
         | d :: rest3 => if d = '.' then d :: rest3.takeWhile isDigitCh else []
         | [] => []))
    else findNumRun rest

/-- Rational value of a `\d+\.?\d*` match. -/
def numRunToRat (l : List Char) : ℚ :=
  let ip := l.takeWhile isDigitCh
  let rest := l.drop ip.length
  let fp := match rest with
    | _ :: fs => fs
    | [] => []
  (digitsToNat ip : ℚ) + (digitsToNat fp : ℚ) / ((10 : ℚ) ^ fp.length)

/-- The underscore character. -/
def usChar : Char := Char.ofNat 95

/-- Tail of Python's base-10 integer-literal grammar: digits with single
underscores allowed only between digits. -/
def digitsUTail : List Char → Bool
  | [] => true
  | c :: rest =>
    if isDigitCh c then digitsUTail rest
    else if c = usChar then
      match rest with
      | d :: _ => isDigitCh d ∧ digitsUTail rest
      | [] => false
    else false

/-- Nonempty digit string with legally placed underscores. -/
def digitsUOk : List Char → Bool
  | [] => false
  | c :: rest => isDigitCh c ∧ digitsUTail rest

/-- Value of an underscore-grouped digit string. -/
def digitsUVal (l : List Char) : Nat :=
  digitsToNat (l.filter (fun x => x ≠ usChar))

/-- Python `int(s)` for base 10: surrounding whitespace, an optional sign,
then underscore-grouped digits; anything else raises, modelled as `none`. -/
def pyInt (l : List Char) : Option ℤ :=
  let t := pyStrip l
  match t with
  | [] => none
  | c :: rest =>
    if c = '+' then
      if digitsUOk rest then some (digitsUVal rest : ℤ) else none
    else if c = '-' then
      if digitsUOk rest then some (-(digitsUVal rest : ℤ)) else none
    else if digitsUOk t then some (digitsUVal t : ℤ) else none

/-- Split a list at the first occurrence of a character satisfying `p`,
returning the part before it and (if found) the part after it. -/
def splitAtPred (p : Char → Bool) : List Char → List Char × Option (List Char)
  | [] => ([], none)
  | x :: rest =>
    if p x then ([], some rest)
    else
      let r := splitAtPred p rest
      (x :: r.1, r.2)

/-- Value of the digit parts of a float literal: `ip . fp e ex`. -/
def pyFloatVal (ip fp : List Char) (exNeg : Bool) (ex : Option (List Char)) : ℚ :=
  let base : ℚ := (digitsUVal ip : ℚ) +
    (digitsUVal fp : ℚ) / ((10 : ℚ) ^ (fp.filter (fun x => x ≠ usChar)).length)
  match ex with
  | none => base
  | some e => if exNeg then base / ((10 : ℚ) ^ digitsUVal e) else base * ((10 : ℚ) ^ digitsUVal e)

/-- Python `float(s)` after sign removal: mantissa with optional fraction and
exponent, underscores grouped between digits.  IEEE special values
(`inf`, `infinity`, `nan`) have no rational counterpart and are outside this
model; no claim below evaluates `float()` on them. -/
def pyFloatCore (l : List Char) : Option ℚ :=
  let em := splitAtPred (fun c => c = 'e' ∨ c = 'E') l
  let dm := splitAtPred (fun c => c = '.') em.1
  let ip := dm.1
  let fp := (dm.2).getD []
  let ipOk := ip.isEmpty ∨ digitsUOk ip
  let fpOk := fp.isEmpty ∨ digitsUOk fp
  if ipOk ∧ fpOk ∧ ¬(ip.isEmpty ∧ fp.isEmpty) then
    match em.2 with
    | none => some (pyFloatVal ip fp false none)
    | some ex =>
      match ex with
      | [] => none
      | c :: rest =>
        if c = '+' then
          if digitsUOk rest then some (pyFloatVal ip fp false (some rest)) else none
        else if c = '-' then
          if digitsUOk rest then some (pyFloatVal ip fp true (some rest)) else none
        else if digitsUOk ex then some (pyFloatVal ip fp false (some ex)) else none
  else none

/-- Python `float(s)`: strip, optional sign, then the numeric core. -/
def pyFloat (l : List Char) : Option ℚ :=
  let t := pyStrip l
  match t with
  | [] => none
  | c :: rest =>
    if c = '+' then pyFloatCore rest
    else if c = '-' then (pyFloatCore rest).map (fun q => -q)
    else pyFloatCore t

/-- One token of a word-level regex pattern: a literal character matched
case-insensitively (`re.IGNORECASE`), an optional literal (`X?`), or a
whitespace run (`\s+`). -/
inductive PatTok where
  | lit (c : Char) : PatTok
  | opt (c : Char) : PatTok
  | ws1 : PatTok
deriving DecidableEq

/-- All ways the token list can match a front segment of the input, each
result a remaining suffix; results are ordered greedy-first, which realises
the regex engine's backtracking priority. -/
def matchToksAll : List PatTok → List Char → List (List Char)
  | [], l => [l]
  | PatTok.lit _ :: _, [] => []
  | PatTok.lit c :: ps, x :: xs =>
    if lowChar x = lowChar c then matchToksAll ps xs else []
  | PatTok.opt _ :: ps, [] => matchToksAll ps []
  | PatTok.opt c :: ps, x :: xs =>
    (if lowChar x = lowChar c then matchToksAll ps xs else []) ++ matchToksAll ps (x :: xs)
  | PatTok.ws1 :: _, [] => []
  | PatTok.ws1 :: ps, x :: xs =>
    if isSpaceCh x then matchToksAll ps (xs.dropWhile isSpaceCh) else []

/-- What follows the word part of each pattern used by the sources. -/
inductive TailSpec where
  | bOnly        -- `\b`
  | bDotOpt      -- `\b\.?`
  | dotReq       -- `\b\.` (the dot itself provides the boundary)
  | bDotOptWs    -- `\b\.?(?=\s)`
  | dotSpacesEnd -- `\.\s*$`
deriving DecidableEq

/-- Try to match a tail spec against the suffix left after the word part.
On success, return the suffix after the whole match together with the
word-boundary state at that point of the original string (`true` when the
character just before the remaining suffix is a non-word character). -/
def applyTail : TailSpec → List Char → Option (List Char × Bool)
  | TailSpec.bOnly, [] => some ([], false)
  | TailSpec.bOnly, x :: xs =>
    if isWordCh x then none else some (x :: xs, false)
  | TailSpec.bDotOpt, [] => some ([], false)
  | TailSpec.bDotOpt, x :: xs =>
    if x = '.' then some (xs, true)
    else if isWordCh x then none else some (x :: xs, false)
  | TailSpec.dotReq, [] => none
  | TailSpec.dotReq, x :: xs => if x = '.' then some (xs, true) else none
  | TailSpec.bDotOptWs, [] => none
  | TailSpec.bDotOptWs, x :: xs =>
    if x = '.' then
      match xs with
      | y :: _ => if isSpaceCh y then some (xs, true) else none
      | [] => none
    else if isSpaceCh x then some (x :: xs, false) else none
  | TailSpec.dotSpacesEnd, [] => none
  | TailSpec.dotSpacesEnd, x :: xs =>
    if x = '.' ∧ xs.all isSpaceCh then some ([], true) else none

/-- First remainder (in backtracking priority order) accepted by the tail. -/
def firstTailHit (ts : TailSpec) : List (List Char) → Option (List Char × Bool)
  | [] => none
  | r :: rs =>
    match applyTail ts r with
    | some x => some x
    | none => firstTailHit ts rs

theorem matchToksAll_length_le :
    ∀ (toks : List PatTok) (l r : List Char), r ∈ matchToksAll toks l → r.length ≤ l.length := by
  intro toks
  induction toks with
  | nil =>
    intro l r h
    simp [matchToksAll] at h
    simp [h]
  | cons t ps ih =>
    intro l r h
    cases t with
    | lit c =>
      cases l with
      | nil => simp [matchToksAll] at h
      | cons x xs =>
        simp only [matchToksAll] at h
        by_cases hc : lowChar x = lowChar c
        · simp [hc] at h
          exact Nat.le_succ_of_le (ih xs r h)
        · simp [hc] at h
    | opt c =>
      cases l with
      | nil =>
        simp only [matchToksAll] at h
        simpa using ih [] r h
      | cons x xs =>
        simp only [matchToksAll, List.mem_append] at h
        rcases h with h | h
        · by_cases hc : lowChar x = lowChar c
          · simp [hc] at h
            exact Nat.le_succ_of_le (ih xs r h)
          · simp [hc] at h
        · exact ih (x :: xs) r h
    | ws1 =>
      cases l with
      | nil => simp [matchToksAll] at h
      | cons x xs =>
        simp only [matchToksAll] at h
        by_cases hs : isSpaceCh x
        · simp [hs] at h
          have h1 := ih (xs.dropWhile isSpaceCh) r h
          have h2 : (xs.dropWhile isSpaceCh).length ≤ xs.length :=
            (List.dropWhile_sublist _).length_le
          exact Nat.le_succ_of_le (le_trans h1 h2)
        · simp [hs] at h

theorem applyTail_length_le :
    ∀ (ts : TailSpec) (l r : List Char) (b : Bool), applyTail ts l = some (r, b) → r.length ≤ l.length := by
  intro ts l r b h
  cases ts <;> cases l <;> simp only [applyTail] at h <;>
    (try split at h) <;> (try split at h) <;> (try split at h) <;> simp_all

theorem firstTailHit_length_le :
    ∀ (ts : TailSpec) (rs : List (List Char)) (r : List Char) (b : Bool),
      firstTailHit ts rs = some (r, b) → ∃ r1 ∈ rs, r.length ≤ r1.length := by
  intro ts rs
  induction rs with
  | nil => intro r b h; simp [firstTailHit] at h
  | cons x xs ih =>
    intro r b h
    simp only [firstTailHit] at h
    cases hx : applyTail ts x with
    | some v =>
      rw [hx] at h
      rcases v with ⟨r1, b1⟩
      simp at h
      exact ⟨x, by simp, by rw [← h.1]; exact applyTail_length_le ts x r1 b1 hx⟩
    | none =>
      rw [hx] at h
      rcases ih r b h with ⟨r1, hr1, hle⟩
      exact ⟨r1, by simp [hr1], hle⟩

/-- `re.sub` of one word pattern `\b<c0><toks><tail>` with replacement
`repl`: scan left to right, replacing every non-overlapping match; `atB`
tracks whether the current position is at a word boundary (the previous
character of the original string is a non-word character or the string
start).  The recursion is driven by a fuel counter so that the function
reduces inside the kernel; every step strictly shortens the list (by
`matchToksAll_length_le` / `firstTailHit_length_le` the suffix after a match
is shorter than the input), so the initial fuel `l.length + 1` supplied by
`subWordPat` is never exhausted and the `fuel = 0` branch is unreachable. -/
def subWordPatGo (c0 : Char) (toks : List PatTok) (ts : TailSpec) (repl : List Char) :
    Nat → Bool → List Char → List Char
  | 0, _, l => l
  | _ + 1, _, [] => []
  | fuel + 1, atB, c :: cs =>
    if atB ∧ lowChar c = lowChar c0 then
      match firstTailHit ts (matchToksAll toks cs) with
      | some (rest2, b2) => repl ++ subWordPatGo c0 toks ts repl fuel b2 rest2
      | none => c :: subWordPatGo c0 toks ts repl fuel (!(isWordCh c)) cs
    else c :: subWordPatGo c0 toks ts repl fuel (!(isWordCh c)) cs

def subWordPat (c0 : Char) (toks : List PatTok) (ts : TailSpec) (repl : List Char)
    (l : List Char) : List Char :=
  subWordPatGo c0 toks ts repl (l.length + 1) true l

/-- Literal-character tokens from a string. -/
def lits (s : String) : List PatTok := s.data.map PatTok.lit

/-- `re.sub(r'^The\s+', '', ·)` (case-sensitive, anchored). -/
def stripLeadingThe (l : List Char) : List Char :=
  match l with
  | 'T' :: 'h' :: 'e' :: c :: cs =>
    if isSpaceCh c then cs.dropWhile isSpaceCh else l
  | _ => l

/-- Core of the trailing-parenthetical removal: `c` is the string before the
final `)` (any trailing whitespace after `)` already removed), `whole` the
original string returned when the pattern does not match. -/
def removeParenEndCore (c : List Char) (whole : List Char) : List Char :=
  let s := (c.reverse.takeWhile (fun x => x ≠ ')')).reverse
  if s.contains '(' then
    let kept := c.take (c.length - s.length) ++ s.takeWhile (fun x => x ≠ '(')
    (kept.reverse.dropWhile isSpaceCh).reverse
  else whole

/-- `re.sub(r'\s*\([^)]*\)$', '', ·)`, and with `allowTrailWs` also the
variant `r'\s*\([^)]*\)\s*$'` used by `standardize_university_name`. -/
def removeParenEnd (allowTrailWs : Bool) (l : List Char) : List Char :=
  let r := l.reverse
  let r1 := if allowTrailWs then r.dropWhile isSpaceCh else r
  match r1 with
  | x :: rest => if x = ')' then removeParenEndCore rest.reverse l else l
  | [] => l

/-- `re.sub(r'<mark>\s*[A-Z]{2,}$', '', ·)`, with `spacesBefore` also
allowing `\s*` before the mark (`r'\s*-\s*[A-Z]{2,}$'` etc.). -/
def removeMarkCapsEnd (mark : Char) (spacesBefore : Bool) (l : List Char) : List Char :=
  let r := l.reverse
  let caps := r.takeWhile isUpperCh
  if 2 ≤ caps.length then
    let r2 := (r.drop caps.length).dropWhile isSpaceCh
    match r2 with
    | x :: rest =>
      if x = mark then
        if spacesBefore then (rest.dropWhile isSpaceCh).reverse else rest.reverse
      else l
    | [] => l
  else l

/-- `re.sub(r'\s*<mark>\s*.*$', '', ·)`: cut everything from the first
occurrence of `mark`, plus the whitespace just before it. -/
def removeFromFirstMark (mark : Char) (l : List Char) : List Char :=
  if l.contains mark then
    let kept := l.takeWhile (fun x => x ≠ mark)
    (kept.reverse.dropWhile isSpaceCh).reverse
  else l

/-- The ordered abbreviation expansions of
`UniversityDataCleaner.clean_university_name` (all `re.IGNORECASE`):
`\bUniv\b\.?`, `\bU\b\.?(?=\s)`, `\bInst\b\.?`, `\bTech\b\.?`, `\bColl\b\.?`,
`\bSci\b\.?`, `\bEng\b\.?`, `\bMed\b\.?`, `\bBus\b\.?`, `\bInt'?l\b\.?`,
`\bNat'?l\b\.?`, `\bSt\b\.`, `\bMt\b\.`. -/
def dcAbbrevSubs (l : List Char) : List Char :=
  let l := subWordPat 'u' (lits ("niv")) TailSpec.bDotOpt (("University").data) l
  let l := subWordPat 'u' [] TailSpec.bDotOptWs (("University").data) l
  let l := subWordPat 'i' (lits ("nst")) TailSpec.bDotOpt (("Institute").data) l
  let l := subWordPat 't' (lits ("ech")) TailSpec.bDotOpt (("Technology").data) l
  let l := subWordPat 'c' (lits ("oll")) TailSpec.bDotOpt (("College").data) l
  let l := subWordPat 's' (lits ("ci")) TailSpec.bDotOpt (("Science").data) l
  let l := subWordPat 'e' (lits ("ng")) TailSpec.bDotOpt (("Engineering").data) l
  let l := subWordPat 'm' (lits ("ed")) TailSpec.bDotOpt (("Medical").data) l
  let l := subWordPat 'b' (lits ("us")) TailSpec.bDotOpt (("Business").data) l
  let l := subWordPat 'i' (lits ("nt") ++ [PatTok.opt apoChar, PatTok.lit 'l'])
    TailSpec.bDotOpt (("International").data) l
  let l := subWordPat 'n' (lits ("at") ++ [PatTok.opt apoChar, PatTok.lit 'l'])
    TailSpec.bDotOpt (("National").data) l
  let l := subWordPat 's' (lits ("t")) TailSpec.dotReq (("Saint").data) l
  subWordPat 'm' (lits ("t")) TailSpec.dotReq (("Mount").data) l

/-- The connector words kept lower-case by
`UniversityDataCleaner._title_case_university_name`. -/
def dcLowerWords : List (List Char) :=
  [("of").data, ("the").data, ("and").data, ("in").data, ("at").data,
   ("by").data, ("for").data, ("to").data, ("into").data, ("with").data,
   ("from").data, ("up").data, ("on").data, ("off").data, ("over").data,
   ("under").data]

/-- `UniversityDataCleaner._title_case_university_name`: split on
whitespace, capitalize the first word, lower connector words, capitalize the
rest. -/
def titleCaseUniversityName (l : List Char) : List Char :=
  match pySplit l with
  | [] => l
  | w :: rest =>
    joinSpace (pyCapitalize w ::
      rest.map (fun x => if dcLowerWords.contains (lowList x) then lowList x else pyCapitalize x))

/-- `UniversityDataCleaner.clean_university_name` on a string input.  The
memoization cache of the source is behaviourally transparent (the function
is deterministic) and is not modelled.  Null/non-string inputs map to `""`
in the source; the model takes genuine strings. -/
def cleanUniversityName (name : String) : String :=
  let l := wsCollapse (pyStrip name.data)
  let l := dcAbbrevSubs l
  let l := removeParenEnd false l
  let l := removeMarkCapsEnd '-' true l
  let l := removeMarkCapsEnd ',' true l
  let l := stripLeadingThe l
  String.mk (titleCaseUniversityName l)

/-- The fixed alias dictionary of
`UniversityDataCleaner._load_country_mappings`. -/
def countryMappings : List (String × String) :=
  [(("US"), ("United States")),
   (("USA"), ("United States")),
   (("United States of America"), ("United States")),
   (("UK"), ("United Kingdom")),
   (("Great Britain"), ("United Kingdom")),
   (("England"), ("United Kingdom")),
   (("Scotland"), ("United Kingdom")),
   (("Wales"), ("United Kingdom")),
   (("Northern Ireland"), ("United Kingdom")),
   (("Russia"), ("Russian Federation")),
   (("South Korea"), ("Republic of Korea")),
   (("North Korea"), (String.mk (("Democratic People").data ++ [apoChar] ++ ("s Republic of Korea").data))),
   (("Iran"), ("Islamic Republic of Iran")),
   (("Vietnam"), ("Viet Nam")),
   (("Czech Republic"), ("Czechia")),
   (("Macedonia"), ("North Macedonia")),
   (("Myanmar"), ("Myanmar (Burma)")),
   (("Congo"), ("Democratic Republic of the Congo"))]

/-- Exact-key lookup in an association list (Python `dict` access). -/
def lookupStr (m : List (String × String)) (k : String) : Option String :=
  match m with
  | [] => none
  | p :: rest => if p.1 = k then some p.2 else lookupStr rest k

/-- `UniversityDataCleaner.clean_country_name`: strip, alias table (early
return), whitespace collapse, the `re.IGNORECASE` standardizations
`\bUSA?\b` / `\bUK\b` / `\bU\.?S\.?A\.?\b` / `\bU\.?K\.?\b`, then
`str.title()`. -/
def cleanCountryName (country : String) : String :=
  let s := pyStrip country.data
  match lookupStr countryMappings (String.mk s) with
  | some v => v
  | none =>
    let s := wsCollapse s
    let s := subWordPat 'u' [PatTok.lit 's', PatTok.opt 'a'] TailSpec.bOnly
      (("United States").data) s
    let s := subWordPat 'u' [PatTok.lit 'k'] TailSpec.bOnly
      (("United Kingdom").data) s
    let s := subWordPat 'u' [PatTok.opt '.', PatTok.lit 's', PatTok.opt '.',
      PatTok.lit 'a', PatTok.opt '.'] TailSpec.bOnly (("United States").data) s
    let s := subWordPat 'u' [PatTok.opt '.', PatTok.lit 'k', PatTok.opt '.']
      TailSpec.bOnly (("United Kingdom").data) s
    String.mk (pyTitle s)

/-- `UniversityDataCleaner.clean_city_name`: drop a trailing parenthetical,
drop a trailing `,<spaces><CAPS>` state code, collapse whitespace, then
`str.title()`. -/
def cleanCityName (city : String) : String :=
  let l := removeParenEnd false city.data
  let l := removeMarkCapsEnd ',' false l
  let l := wsCollapse (pyStrip l)
  String.mk (pyTitle l)

/-- The "not ranked" markers checked by `UniversityDataCleaner._parse_ranking`. -/
def rankNullWords : List (List Char) :=
  [("not").data, ("unranked").data, ("n/a").data, ("na").data]

/-- `UniversityDataCleaner._parse_ranking`: `none` models both a null input
(`pd.isna`) and an unparseable one.  Steps: strip; null markers; strip one
leading `=`/`#`/`+`; keep the part before the first `-` (range lower bound);
cut from the first `+`; first `\d+` run to an integer. -/
def parseRanking (rankValue : Option String) : Option ℤ :=
  match rankValue with
  | none => none
  | some s =>
    let t := pyStrip s.data
    if rankNullWords.any (fun w => containsSeq w (lowList t)) then none
    else
      let t := match t with
        | c :: rest => if c = '=' ∨ c = '#' ∨ c = '+' then rest else t
        | [] => t
      let t := if t.contains '-' then t.takeWhile (fun c => c ≠ '-') else t
      let t := if t.contains '+' then t.takeWhile (fun c => c ≠ '+') else t
      match findDigitRun t with
      | some run => some (digitsToNat run : ℤ)
      | none => none

/-- `UniversityDataCleaner._parse_score`: `none` models null and unparseable
inputs.  A `%` value is parsed with `float()` after deleting every `%` and
divided by 10; otherwise the first `\d+\.?\d*` run is taken. -/
def parseScore (scoreValue : Option String) : Option ℚ :=
  match scoreValue with
  | none => none
  | some s =>
    let t := pyStrip s.data
    if t.contains '%' then
      match pyFloat (t.filter (fun c => c ≠ '%')) with
      | some v => some (v / 10)
      | none => none
    else
      match findNumRun t with
      | some run => some (numRunToRat run)
      | none => none

/-- The connector words of `standardize_university_name`'s title-casing. -/
def gsExceptionWords : List (List Char) :=
  [("of").data, ("the").data, ("and").data, ("in").data, ("at").data,
   ("by").data, ("for").data, ("to").data, ("with").data, ("on").data]

/-- The ordered replacement dictionary of
`UniversityDataIntegrator.standardize_university_name` (all
`re.IGNORECASE`): `\buniv\b\.?`, `\buniversity of\b`, `\bu\.?\s+of\b`,
`\bu\.\s*$`, `\buniv\.\s*$`, `\binst\b\.?`, `\binstitute of\b`,
`\btech\b\.?`, `\btechnical\b`, `\bcoll\b\.?`, `\bcollege of\b`,
`\bstate\s+u\b\.?`, `\bst\.\s+u\b\.?`. -/
def gsReplacements (l : List Char) : List Char :=
  let l := subWordPat 'u' (lits ("niv")) TailSpec.bDotOpt (("University").data) l
  let l := subWordPat 'u' (lits ("niversity of")) TailSpec.bOnly (("University of").data) l
  let l := subWordPat 'u' ([PatTok.opt '.', PatTok.ws1] ++ lits ("of")) TailSpec.bOnly
    (("University of").data) l
  let l := subWordPat 'u' [] TailSpec.dotSpacesEnd (("University").data) l
  let l := subWordPat 'u' (lits ("niv")) TailSpec.dotSpacesEnd (("University").data) l
  let l := subWordPat 'i' (lits ("nst")) TailSpec.bDotOpt (("Institute").data) l
  let l := subWordPat 'i' (lits ("nstitute of")) TailSpec.bOnly (("Institute of").data) l
  let l := subWordPat 't' (lits ("ech")) TailSpec.bDotOpt (("Technology").data) l
  let l := subWordPat 't' (lits ("echnical")) TailSpec.bOnly (("Technology").data) l
  let l := subWordPat 'c' (lits ("oll")) TailSpec.bDotOpt (("College").data) l
  let l := subWordPat 'c' (lits ("ollege of")) TailSpec.bOnly (("College of").data) l
  let l := subWordPat 's' (lits ("tate") ++ [PatTok.ws1, PatTok.lit 'u']) TailSpec.bDotOpt
    (("State University").data) l
  subWordPat 's' (lits ("t") ++ [PatTok.lit '.', PatTok.ws1, PatTok.lit 'u']) TailSpec.bDotOpt
    (("State University").data) l

/-- Title-casing step of `standardize_university_name`: the first word and
every word outside the exception set get `str.capitalize()`, exception words
are lower-cased. -/
def gsTitleWords : List (List Char) → List (List Char)
  | [] => []
  | w :: rest =>
    pyCapitalize w ::
      rest.map (fun x => if gsExceptionWords.contains (lowList x) then lowList x else pyCapitalize x)

/-- `UniversityDataIntegrator.standardize_university_name`: strip, ordered
replacements, removal of a trailing parenthetical and of everything after
the first dash / comma, whitespace normalization, title-casing with
exceptions.  Null / empty input maps to `""` in the source. -/
def standardizeUniversityName (name : String) : String :=
  let l := pyStrip name.data
  let l := gsReplacements l
  let l := removeParenEnd true l
  let l := removeFromFirstMark '-' l
  let l := removeFromFirstMark ',' l
  let l := joinSpace (pySplit l)
  String.mk (joinSpace (gsTitleWords (pySplit l)))

/-- The four `thefuzz` similarity measures used by
`find_university_matches`.  `thefuzz` is an external, unpinned dependency,
so the measures are an opaque parameter pack; only the selection logic
built on top of them is code of this repository. -/
structure SimFns where
  exactSim : String → String → ℚ
  partSim : String → String → ℚ
  sortSim : String → String → ℚ
  setSim : String → String → ℚ

/-- The weighted combination
`ratio*0.3 + partial*0.2 + token_sort*0.25 + token_set*0.25` computed by
`find_university_matches` on the lower-cased standardized names. -/
def combinedScore (f : SimFns) (a b : String) : ℚ :=
  let a1 := String.mk (lowList a.data)
  let b1 := String.mk (lowList b.data)
  f.exactSim a1 b1 * (3 / 10) + f.partSim a1 b1 * (2 / 10) +
    f.sortSim a1 b1 * (25 / 100) + f.setSim a1 b1 * (25 / 100)

/-- The inner loop of `find_university_matches`: fold over the QS name list
keeping `(best_match, best_score)`, updating when
`combined_score > best_score and combined_score >= 80`. -/
def bestMatchStep (f : SimFns) (key : String) (acc : Option String × ℚ) (qsUni : String) :
    Option String × ℚ :=
  let stdQs := standardizeUniversityName qsUni
  let c := combinedScore f key stdQs
  if acc.2 < c ∧ 80 ≤ c then (some stdQs, c) else acc

def bestMatchFor (f : SimFns) (key : String) (qsUnis : List String) : Option String × ℚ :=
  qsUnis.foldl (bestMatchStep f key) (none, 0)

/-- Python `dict` insertion: replace the binding of an existing key in
place, otherwise append. -/
def dictInsert (k v : String) : List (String × String) → List (String × String)
  | [] => [(k, v)]
  | p :: rest => if p.1 = k then (k, v) :: rest else p :: dictInsert k v rest

/-- `UniversityDataIntegrator.find_university_matches`: for every non-empty
feedback name, standardize it, scan all QS names for the best combined
score `≥ 80`, and record `matches[std_feedback] = best_std_qs` when one
exists. -/
def findUniversityMatches (f : SimFns) (feedbackUnis qsUnis : List String) :
    List (String × String) :=
  feedbackUnis.foldl
    (fun acc fb =>
      if fb = ("") then acc
      else
        let key := standardizeUniversityName fb
        match (bestMatchFor f key qsUnis).1 with
        | some m => dictInsert key m acc
        | none => acc)
    []

/-- `dict.get` / `pandas.Series.map` lookup over the match dictionary. -/
def dictLookup (m : List (String × String)) (k : String) : Option String :=
  match m with
  | [] => none
  | p :: rest => if p.1 = k then some p.2 else dictLookup rest k

/-- `UniversityDataIntegrator.clean_qs_rank`: strip, drop one leading `=`,
keep the part before the first `-` and before the first `+`, then Python
`int()`; `none` models null input and `ValueError`. -/
def cleanQsRank (rankStr : Option String) : Option ℤ :=
  match rankStr with
  | none => none
  | some s =>
    let t := pyStrip s.data
    let t := match t with
      | c :: rest => if c = '=' then rest else t
      | [] => t
    let t := if t.contains '-' then t.takeWhile (fun c => c ≠ '-') else t
    let t := if t.contains '+' then t.takeWhile (fun c => c ≠ '+') else t
    pyInt t

/-- One row of the aggregated feedback dataframe, as produced by
`process_feedback_data` + `aggregate_feedback_by_university`
(columns: `standardized_name`, mean subjective metrics, first-seen
categorical columns, `response_count`). -/
structure FeedbackRecord where
  standardizedName : String
  city : Option String
  overallQuality : Option ℚ
  academicRigor : Option ℚ
  openness : Option ℚ
  culturalDiversity : Option ℚ
  studentLife : Option ℚ
  campusSafety : Option ℚ
  accommodation : Option String
  language : Option String
  languageClasses : Option String
  accessibility : Option String
  responseCount : ℤ
deriving DecidableEq

/-- One row of the QS dataframe, as produced by `load_qs_rankings_data`.
The columns relevant to the claims are kept (`institution_name`,
`standardized_name`, `clean_rank`, `country`, `city`); the remaining raw QS
scalar columns pass through `merge_data_sources` unchanged exactly like
`institution_name` and are omitted.  `load_qs_rankings_data` produces **no**
subjective-metric columns (see `qsSubjectiveMetric`). -/
structure QSRecord where
  institutionName : String
  standardizedName : String
  cleanRank : Option ℤ
  country : String
  city : String
deriving DecidableEq

/-- The primary (QS) side's value for any of the five subjective metrics
(`academic_rigor`, `cultural_diversity`, `openness`, `student_life`,
`campus_safety`): the schema fixed by `load_qs_rankings_data`
(line 256 of `google_sheets_integration.py`) has no such column, so the
primary value is always null. -/
def qsSubjectiveMetric (_ : QSRecord) : Option ℚ := none

/-- One row of the merged dataframe produced by `merge_data_sources`.
`standardized_name` and `city` are the only overlapping column names, so
they appear with `_qs` / `_feedback` suffixes; every other feedback column
keeps its plain name, with null values for unmatched primary rows. -/
structure MergedRow where
  institutionName : String
  standardizedNameQs : String
  cleanRank : Option ℤ
  country : String
  cityQs : String
  standardizedNameFeedback : Option String
  qsMatchName : Option String
  cityFeedback : Option String
  overallQuality : Option ℚ
  academicRigor : Option ℚ
  openness : Option ℚ
  culturalDiversity : Option ℚ
  studentLife : Option ℚ
  campusSafety : Option ℚ
  accommodation : Option String
  language : Option String
  languageClasses : Option String
  accessibility : Option String
  responseCount : Option ℤ
deriving DecidableEq

/-- Build one merged row from a QS row and (when the left join matched) a
feedback row. -/
def mkMergedRow (q : QSRecord) (fb : Option FeedbackRecord) : MergedRow :=
  match fb with
  | none =>
    ⟨q.institutionName, q.standardizedName, q.cleanRank, q.country, q.city,
      none, none, none, none, none, none, none, none, none, none, none, none, none, none⟩
  | some s =>
    ⟨q.institutionName, q.standardizedName, q.cleanRank, q.country, q.city,
      some s.standardizedName, some q.standardizedName, s.city, s.overallQuality,
      s.academicRigor, s.openness, s.culturalDiversity, s.studentLife, s.campusSafety,
      s.accommodation, s.language, s.languageClasses, s.accessibility,
      some s.responseCount⟩

/-- The `qs_match_name` column: `feedback_df['standardized_name'].map(matches)`. -/
def fbWithMatch (f : SimFns) (feedback : List FeedbackRecord) (qs : List QSRecord) :
    List (FeedbackRecord × Option String) :=
  let fbUnis := (feedback.map (fun r => r.standardizedName)).eraseDups
  let qsUnis := (qs.map (fun r => r.standardizedName)).eraseDups
  let matchDict := findUniversityMatches f fbUnis qsUnis
  feedback.map (fun r => (r, dictLookup matchDict r.standardizedName))

/-- `UniversityDataIntegrator.merge_data_sources`: when the feedback frame
is empty the QS frame is returned unchanged (represented with all-null
feedback columns; the source returns the frame without those columns, a
schema difference with no bearing on row counts or values).  Otherwise a
pandas left join of `qs_df` with `feedback_df` on
`standardized_name = qs_match_name`: every QS row is emitted once per
matching feedback row, or once with null feedback columns when nothing
matches.  The source's final `fillna` loop over `academic_rigor` and
`cultural_diversity` is guarded by the existence of `<col>_feedback`
columns; since the only overlapping column names are `standardized_name`
and `city`, no such suffixed columns exist and the loop is a no-op.
The left-join body is `joinRows`: one output row per matching feedback row,
or a single row with null feedback columns when nothing matches. -/
def joinRows (fbl : List (FeedbackRecord × Option String)) (qsRows : List QSRecord) :
    List MergedRow :=
  qsRows.flatMap (fun q =>
    let matched := fbl.filter (fun rm => rm.2 = some q.standardizedName)
    if matched.isEmpty then [mkMergedRow q none]
    else matched.map (fun rm => mkMergedRow q (some rm.1)))

def mergeDataSources (f : SimFns) (feedback : List FeedbackRecord) (qs : List QSRecord) :
    List MergedRow :=
  if feedback.isEmpty then qs.map (fun q => mkMergedRow q none)
  else joinRows (fbWithMatch f feedback qs) qs

/-- Number of feedback rows the left join assigns to the QS row `q`. -/
def matchedCount (f : SimFns) (feedback : List FeedbackRecord) (qs : List QSRecord)
    (q : QSRecord) : Nat :=
  ((fbWithMatch f feedback qs).filter (fun rm => rm.2 = some q.standardizedName)).length

/-- One row of the cleaned-dataset dataframe handled by
`UniversityDataCleaner._merge_duplicate_rows` (all the columns that method
inspects, plus `us_news_rank` and `response_count` which `clean_dataset`'s
pipeline can carry but the merge method leaves untouched). -/
structure CRow where
  name : Option String
  city : Option String
  country : Option String
  websiteUrl : Option String
  academicRigor : Option ℚ
  studentLife : Option ℚ
  culturalDiversity : Option ℚ
  campusSafety : Option ℚ
  researchQuality : Option ℚ
  overallQuality : Option ℚ
  qsRank : Option ℤ
  theRank : Option ℤ
  arwuRank : Option ℤ
  usNewsRank : Option ℤ
  qsScore : Option ℚ
  theScore : Option ℚ
  responseCount : Option ℤ
deriving DecidableEq

/-- Python `max(values, key=len)`: first value of maximal length. -/
def pickLongest (x : String) (rest : List String) : String :=
  rest.foldl (fun best v => if best.length < v.length then v else best) x

/-- Arithmetic mean of a nonempty list of rationals (`Series.mean()`). -/
def listMean (x : ℚ) (rest : List ℚ) : ℚ :=
  (rest.foldl (fun a v => a + v) x) / ((rest.length + 1 : ℕ) : ℚ)

/-- Minimum of a nonempty list of integers (`Series.min()`). -/
def listMin (x : ℤ) (rest : List ℤ) : ℤ :=
  rest.foldl (fun a v => min a v) x

/-- Merge policy of one text field: the longest non-null value, first-seen
on ties; when every value is null the first row's (null) value is kept. -/
def mergeTextField (rows : List CRow) (fld : CRow → Option String) (first : CRow) :
    Option String :=
  match (rows.filterMap fld) with
  | [] => fld first
  | v :: vs => some (pickLongest v vs)

/-- Merge policy of one bounded-metric or score field: the mean of the
non-null values. -/
def mergeMeanField (rows : List CRow) (fld : CRow → Option ℚ) (first : CRow) : Option ℚ :=
  match (rows.filterMap fld) with
  | [] => fld first
  | v :: vs => some (listMean v vs)

/-- Merge policy of one ranking field: the minimum non-null value. -/
def mergeMinField (rows : List CRow) (fld : CRow → Option ℤ) (first : CRow) : Option ℤ :=
  match (rows.filterMap fld) with
  | [] => fld first
  | v :: vs => some (listMin v vs)

/-- `UniversityDataCleaner._merge_duplicate_rows` on the cluster
`first :: rest`: start from a copy of the first row; text fields take the
longest non-null value, the six bounded metrics and the two scores take the
mean of non-null values, and `qs_rank` / `the_rank` / `arwu_rank` take the
minimum non-null value.  `us_news_rank` and `response_count` are in none of
the method's field lists, so the first row's values persist. -/
def mergeDuplicateRows (first : CRow) (rest : List CRow) : CRow :=
  let rows := first :: rest
  { name := mergeTextField rows (fun r => r.name) first
    city := mergeTextField rows (fun r => r.city) first
    country := mergeTextField rows (fun r => r.country) first
    websiteUrl := mergeTextField rows (fun r => r.websiteUrl) first
    academicRigor := mergeMeanField rows (fun r => r.academicRigor) first
    studentLife := mergeMeanField rows (fun r => r.studentLife) first
    culturalDiversity := mergeMeanField rows (fun r => r.culturalDiversity) first
    campusSafety := mergeMeanField rows (fun r => r.campusSafety) first
    researchQuality := mergeMeanField rows (fun r => r.researchQuality) first
    overallQuality := mergeMeanField rows (fun r => r.overallQuality) first
    qsRank := mergeMinField rows (fun r => r.qsRank) first
    theRank := mergeMinField rows (fun r => r.theRank) first
    arwuRank := mergeMinField rows (fun r => r.arwuRank) first
    usNewsRank := first.usNewsRank
    qsScore := mergeMeanField rows (fun r => r.qsScore) first
    theScore := mergeMeanField rows (fun r => r.theScore) first
    responseCount := first.responseCount }

/-- The fields of the `University` ORM record read by
`RecommendationEngine.calculate_match_score`.  The ORM class itself is not
part of the sources (only its pydantic API models are); the fields and
their types are exactly those the scorer accesses, `Option`-lifted where
the scorer checks `is not None` or truthiness.  `languages_of_instruction`
is modelled as a list with membership semantics for `lang in ...`, and the
two truthiness-tested flags as plain `Bool` (Python `None` and `False`
behave identically under the scorer's guards). -/
structure Univ where
  academicRigor : Option ℚ
  researchQuality : Option ℚ
  culturalDiversity : Option ℚ
  studentLife : Option ℚ
  campusSafety : Option ℚ
  tuitionInternational : Option ℚ
  qsRank : Option ℤ
  country : String
  languagesOfInstruction : List String
  climateType : Option String
  accommodationAvailable : Bool
deriving DecidableEq

/-- `UserProfile` (pydantic): importances are integers constrained to 1–5,
`max_tuition_budget` is a float `≥ 0`, the rest mirror the model. -/
structure Profile where
  academicImportance : ℤ
  researchImportance : ℤ
  culturalDiversityImportance : ℤ
  studentLifeImportance : ℤ
  campusSafetyImportance : ℤ
  costImportance : ℤ
  rankingImportance : ℤ
  maxTuitionBudget : Option ℚ
  preferredCountries : List String
  preferredClimate : Option String
  languageRequirements : List String
  accommodationRequired : Bool
  minAcceptableRank : Option ℤ
deriving DecidableEq

/-- The pydantic `Field` constraints of `UserProfile`: every importance in
1–5 and a non-negative budget. -/
def validProfile (p : Profile) : Prop :=
  (1 ≤ p.academicImportance ∧ p.academicImportance ≤ 5) ∧
  (1 ≤ p.researchImportance ∧ p.researchImportance ≤ 5) ∧
  (1 ≤ p.culturalDiversityImportance ∧ p.culturalDiversityImportance ≤ 5) ∧
  (1 ≤ p.studentLifeImportance ∧ p.studentLifeImportance ≤ 5) ∧
  (1 ≤ p.campusSafetyImportance ∧ p.campusSafetyImportance ≤ 5) ∧
  (1 ≤ p.costImportance ∧ p.costImportance ≤ 5) ∧
  (1 ≤ p.rankingImportance ∧ p.rankingImportance ≤ 5) ∧
  (∀ b, p.maxTuitionBudget = some b → 0 ≤ b)

/-- One criterion's contribution: the amount added to `score`
(the numerator), the amount added to `max_possible_score`
(the denominator), and the reasons appended. -/
structure Contrib where
  num : ℚ
  den : ℚ
  rs : List String

/-- Academic fit, 25% weight. -/
def academicPart (u : Univ) (p : Profile) : Contrib :=
  match u.academicRigor with
  | none => ⟨0, 0, []⟩
  | some ar =>
    let w := (p.academicImportance : ℚ) / 5 * 25
    ⟨ar / 10 * w, w,
      if 8 ≤ ar ∧ 4 ≤ p.academicImportance then [("Excellent academic rigor match")]
      else if 6 ≤ ar then [("Good academic standards")] else []⟩

/-- Research quality, 15% weight. -/
def researchPart (u : Univ) (p : Profile) : Contrib :=
  match u.researchQuality with
  | none => ⟨0, 0, []⟩
  | some rq =>
    let w := (p.researchImportance : ℚ) / 5 * 15
    ⟨rq / 10 * w, w,
      if 8 ≤ rq ∧ 4 ≤ p.researchImportance then [("Strong research opportunities")] else []⟩

/-- Cultural diversity, 15% weight. -/
def diversityPart (u : Univ) (p : Profile) : Contrib :=
  match u.culturalDiversity with
  | none => ⟨0, 0, []⟩
  | some cd =>
    let w := (p.culturalDiversityImportance : ℚ) / 5 * 15
    ⟨cd / 10 * w, w,
      if 8 ≤ cd ∧ 4 ≤ p.culturalDiversityImportance then
        [("Highly diverse international environment")] else []⟩

/-- Student life, 15% weight. -/
def lifePart (u : Univ) (p : Profile) : Contrib :=
  match u.studentLife with
  | none => ⟨0, 0, []⟩
  | some sl =>
    let w := (p.studentLifeImportance : ℚ) / 5 * 15
    ⟨sl / 10 * w, w,
      if 8 ≤ sl ∧ 4 ≤ p.studentLifeImportance then
        [("Excellent student life and activities")] else []⟩

/-- Campus safety, 10% weight. -/
def safetyPart (u : Univ) (p : Profile) : Contrib :=
  match u.campusSafety with
  | none => ⟨0, 0, []⟩
  | some cs =>
    let w := (p.campusSafetyImportance : ℚ) / 5 * 10
    ⟨cs / 10 * w, w, if 8 ≤ cs then [("Very safe campus environment")] else []⟩

/-- Cost considerations, 10% weight; guarded by non-null tuition and a
truthy (non-zero) budget; partial credit `budget/tuition` when over
budget. -/
def costPart (u : Univ) (p : Profile) : Contrib :=
  match u.tuitionInternational, p.maxTuitionBudget with
  | some t, some b =>
    if b ≠ 0 then
      let w := (p.costImportance : ℚ) / 5 * 10
      if t ≤ b then ⟨w, w, [("Within your budget")]⟩
      else ⟨w * max 0 (b / t), w, []⟩
    else ⟨0, 0, []⟩
  | _, _ => ⟨0, 0, []⟩

/-- Ranking bonus, 5% weight; the denominator is increased whenever
`qs_rank` is non-null, the numerator only under a truthy
`min_acceptable_rank` bound that the rank meets. -/
def rankingPart (u : Univ) (p : Profile) : Contrib :=
  match u.qsRank with
  | none => ⟨0, 0, []⟩
  | some r =>
    let w := (p.rankingImportance : ℚ) / 5 * 5
    match p.minAcceptableRank with
    | some m =>
      if m ≠ 0 ∧ r ≤ m then
        ⟨w, w,
          if r ≤ 100 then [("Top 100 global ranking")]
          else if r ≤ 500 then [("Highly ranked university")] else []⟩
      else ⟨0, w, []⟩
    | none => ⟨0, w, []⟩

/-- Location preference, 5% weight; the denominator is increased
unconditionally. -/
def locationPart (u : Univ) (p : Profile) : Contrib :=
  if p.preferredCountries ≠ [] ∧ u.country ∈ p.preferredCountries then
    ⟨5, 5, [("Located in preferred country: ") ++ u.country]⟩
  else ⟨0, 5, []⟩

/-- Language match, 5% weight; the denominator is increased
unconditionally. -/
def languagePart (u : Univ) (p : Profile) : Contrib :=
  if p.languageRequirements ≠ [] ∧ u.languagesOfInstruction ≠ [] ∧
      p.languageRequirements.any (fun lang => u.languagesOfInstruction.contains lang) then
    ⟨5, 5, [("Offers programs in your preferred language")]⟩
  else ⟨0, 5, []⟩

/-- Climate match, 5% weight; numerator **and** denominator are increased
only inside the satisfied branch. -/
def climatePart (u : Univ) (p : Profile) : Contrib :=
  match p.preferredClimate with
  | some c =>
    if c ≠ ("") ∧ u.climateType = some c then
      ⟨5, 5, [("Perfect climate match: ") ++ c]⟩
    else ⟨0, 0, []⟩
  | none => ⟨0, 0, []⟩

/-- Accommodation availability, 5% weight; numerator **and** denominator
are increased only when required and available. -/
def accomPart (u : Univ) (p : Profile) : Contrib :=
  if p.accommodationRequired ∧ u.accommodationAvailable then
    ⟨5, 5, [("University accommodation available")]⟩
  else ⟨0, 0, []⟩

/-- The eleven criteria in source order. -/
def scoreParts (u : Univ) (p : Profile) : List Contrib :=
  [academicPart u p, researchPart u p, diversityPart u p, lifePart u p,
   safetyPart u p, costPart u p, rankingPart u p, locationPart u p,
   languagePart u p, climatePart u p, accomPart u p]

/-- The accumulated `score` (numerator). -/
def scoreNum (u : Univ) (p : Profile) : ℚ :=
  (scoreParts u p).foldl (fun a c => a + c.num) 0

/-- The accumulated `max_possible_score` (denominator). -/
def scoreDen (u : Univ) (p : Profile) : ℚ :=
  (scoreParts u p).foldl (fun a c => a + c.den) 0

/-- `RecommendationEngine.calculate_match_score`: the final 0–100 score and
the ordered reasons. -/
def calculateMatchScore (u : Univ) (p : Profile) : ℚ × List String :=
  let s := scoreNum u p
  let m := scoreDen u p
  let finalScore := if 0 < m then s / m * 100 else 0
  (min finalScore 100, (scoreParts u p).foldl (fun a c => a ++ c.rs) [])

/-- The claimed per-field merge value for rank fields: the minimum non-null
value across the cluster, null when every member is null. -/
def claimRankMin (rows : List CRow) (fld : CRow → Option ℤ) : Option ℤ :=
  match rows.filterMap fld with
  | [] => none
  | v :: vs => some (listMin v vs)

/-- The claimed merge value for `response_count`: the sum of the members'
non-null counts, null when every member is null. -/
def claimRespSum (rows : List CRow) : Option ℤ :=
  match rows.filterMap (fun r => r.responseCount) with
  | [] => none
  | v :: vs => some (vs.foldl (fun a x => a + x) v)

/-- C3 as stated: in every merged duplicate cluster all four rank fields
are the minimum non-null value and `response_count` is the sum. -/
def c3Claim : Prop :=
  ∀ (first : CRow) (rest : List CRow),
    (mergeDuplicateRows first rest).qsRank = claimRankMin (first :: rest) (fun r => r.qsRank) ∧
    (mergeDuplicateRows first rest).theRank = claimRankMin (first :: rest) (fun r => r.theRank) ∧
    (mergeDuplicateRows first rest).arwuRank = claimRankMin (first :: rest) (fun r => r.arwuRank) ∧
    (mergeDuplicateRows first rest).usNewsRank = claimRankMin (first :: rest) (fun r => r.usNewsRank) ∧
    (mergeDuplicateRows first rest).responseCount = claimRespSum (first :: rest)

/-- A duplicate cluster of two rows that differ only in `us_news_rank`
(5 and 3) and `response_count` (1 and 2). -/
def c3RowA : CRow :=
  ⟨none, none, none, none, none, none, none, none, none, none,
    none, none, none, some 5, none, none, some 1⟩

def c3RowB : CRow :=
  ⟨none, none, none, none, none, none, none, none, none, none,
    none, none, none, some 3, none, none, some 2⟩

/-- C3 fails on the code: `_merge_duplicate_rows` never touches
`us_news_rank` (its ranking list is only `qs_rank`/`the_rank`/`arwu_rank`)
or `response_count`, so the merged row keeps the first row's 5 and 1 where
the claim demands min 3 and sum 3. -/
theorem c3_counterexample : ¬ c3Claim := by
  intro h
  rcases h c3RowA [c3RowB] with ⟨-, -, -, h4, h5⟩
  revert h4 h5
  decide

/-- C3 amended: `qs_rank`, `the_rank` and `arwu_rank` are merged to the
minimum non-null value (null when all-null), while `us_news_rank` and
`response_count` are left at the first row's values. -/
theorem c3_amended (first : CRow) (rest : List CRow) :
    (mergeDuplicateRows first rest).qsRank = claimRankMin (first :: rest) (fun r => r.qsRank) ∧
    (mergeDuplicateRows first rest).theRank = claimRankMin (first :: rest) (fun r => r.theRank) ∧
    (mergeDuplicateRows first rest).arwuRank = claimRankMin (first :: rest) (fun r => r.arwuRank) ∧
    (mergeDuplicateRows first rest).usNewsRank = first.usNewsRank ∧
    (mergeDuplicateRows first rest).responseCount = first.responseCount := by
  refine ⟨?_, ?_, ?_, rfl, rfl⟩ <;>
  · show mergeMinField (first :: rest) _ first = claimRankMin (first :: rest) _
    unfold mergeMinField claimRankMin
    cases hfm : (first :: rest).filterMap _ with
    | nil =>
      have := (List.filterMap_eq_nil.mp hfm) first (by simp)
      simp [this]
    | cons v vs => rfl

/-- C8 fails on the code: the country mapping of `_load_country_mappings`
has no entry for `CA`, so `clean_country_name("CA")` falls through to
title-casing and yields `"Ca"`, not `"Canada"`. -/
theorem c8_counterexample : cleanCountryName ("CA") ≠ ("Canada") := by decide

/-- C8 amended: both name spellings canonicalize to the same
`"University of Toronto"`, and `"Canada"` is stable, but `"CA"` normalizes
to `"Ca"` rather than `"Canada"`, so the two records do **not** end up with
the same canonical country. -/
theorem c8_amended :
    cleanUniversityName ("Univ. of Toronto") = ("University of Toronto") ∧
    cleanUniversityName ("University of Toronto") = ("University of Toronto") ∧
    cleanCountryName ("Canada") = ("Canada") ∧
    cleanCountryName ("CA") = ("Ca") := by
  refine ⟨by decide, by decide, by decide, by decide⟩

/-- C7 as stated (the `parse_rank` range half): every result is null or a
**positive** integer. -/
def c7RankClaim : Prop :=
  ∀ v : Option String, parseRanking v = none ∨ ∃ n, parseRanking v = some n ∧ 0 < n

/-- C7 fails on the code: `_parse_ranking("0")` extracts the digit run `0`
and returns 0, which is not a positive integer (the source's own
`_validate_data` later discards ranks `≤ 0` as invalid). -/
theorem c7_counterexample : ¬ c7RankClaim := by
  intro h
  rcases h (some ("0")) with h0 | ⟨n, hn, hpos⟩
  · revert h0; decide
  · have : n = 0 := by
      have h1 : parseRanking (some ("0")) = some 0 := by decide
      rw [h1] at hn
      exact (Option.some_inj.mp hn).symm
    omega

/-- C7 amended: both parsers are total — `_parse_ranking` always returns
null or a **non-negative** integer (0 is reachable, e.g. for `"0"`), and
`_parse_score` always returns null or a rational value. -/
theorem c7_amended (v : Option String) :
    (parseRanking v = none ∨ ∃ n, parseRanking v = some n ∧ 0 ≤ n) ∧
    (parseScore v = none ∨ ∃ q, parseScore v = some q) := by
  constructor
  · cases v with
    | none => left; rfl
    | some s =>
      unfold parseRanking
      dsimp only
      split
      · left; rfl
      · split
        · next run hrun =>
            right
            exact ⟨(digitsToNat run : ℤ), rfl, Int.natCast_nonneg _⟩
        · left; rfl
  · cases h : parseScore v with
    | none => left; rfl
    | some q => right; exact ⟨q, rfl⟩

/-- C2: every row of `merge_data_sources` is anchored at a primary (QS)
record from which its ranking and identity columns come unchanged, and when
the row is matched to a feedback record each of the five subjective metrics
takes the secondary's value when that value is non-null and the primary's
(null, by the QS schema) value otherwise, with `response_count` carried
from the feedback row. -/
theorem c2_merge_metric_precedence (f : SimFns) (fb : List FeedbackRecord)
    (qs : List QSRecord) (r : MergedRow) (hr : r ∈ mergeDataSources f fb qs) :
    ∃ q ∈ qs,
      r.institutionName = q.institutionName ∧
      r.standardizedNameQs = q.standardizedName ∧
      r.cleanRank = q.cleanRank ∧
      r.country = q.country ∧
      r.cityQs = q.city ∧
      ((r.qsMatchName = none ∧ r.academicRigor = none ∧ r.culturalDiversity = none ∧
          r.openness = none ∧ r.studentLife = none ∧ r.campusSafety = none ∧
          r.responseCount = none) ∨
        ∃ s ∈ fb,
          r.academicRigor =
            (match s.academicRigor with
             | some v => some v
             | none => qsSubjectiveMetric q) ∧
          r.culturalDiversity =
            (match s.culturalDiversity with
             | some v => some v
             | none => qsSubjectiveMetric q) ∧
          r.openness =
            (match s.openness with
             | some v => some v
             | none => qsSubjectiveMetric q) ∧
          r.studentLife =
            (match s.studentLife with
             | some v => some v
             | none => qsSubjectiveMetric q) ∧
          r.campusSafety =
            (match s.campusSafety with
             | some v => some v
             | none => qsSubjectiveMetric q) ∧
          r.responseCount = some s.responseCount) := by
  have hmatch : ∀ (q : QSRecord) (s : FeedbackRecord), r = mkMergedRow q (some s) →
      r.academicRigor =
        (match s.academicRigor with
         | some v => some v
         | none => qsSubjectiveMetric q) ∧
      r.culturalDiversity =
        (match s.culturalDiversity with
         | some v => some v
         | none => qsSubjectiveMetric q) ∧
      r.openness =
        (match s.openness with
         | some v => some v
         | none => qsSubjectiveMetric q) ∧
      r.studentLife =
        (match s.studentLife with
         | some v => some v
         | none => qsSubjectiveMetric q) ∧
      r.campusSafety =
        (match s.campusSafety with
         | some v => some v
         | none => qsSubjectiveMetric q) ∧
      r.responseCount = some s.responseCount := by
    intro q s hrq
    subst hrq
    refine ⟨?_, ?_, ?_, ?_, ?_, rfl⟩ <;>
      simp [mkMergedRow, qsSubjectiveMetric] <;>
      first
      | (cases s.academicRigor <;> rfl)
      | (cases s.culturalDiversity <;> rfl)
      | (cases s.openness <;> rfl)
      | (cases s.studentLife <;> rfl)
      | (cases s.campusSafety <;> rfl)
  unfold mergeDataSources at hr
  split at hr
  · rcases List.mem_map.mp hr with ⟨q, hq, hrq⟩
    exact ⟨q, hq, by simp [← hrq, mkMergedRow], by simp [← hrq, mkMergedRow],
      by simp [← hrq, mkMergedRow], by simp [← hrq, mkMergedRow],
      by simp [← hrq, mkMergedRow],
      Or.inl (by simp [← hrq, mkMergedRow])⟩
  · rcases List.mem_flatMap.mp hr with ⟨q, hq, hrq⟩
    refine ⟨q, hq, ?_⟩
    by_cases hempty :
        ((fbWithMatch f fb qs).filter (fun rm => rm.2 = some q.standardizedName)).isEmpty
    · rw [if_pos hempty] at hrq
      simp only [List.mem_singleton] at hrq
      subst hrq
      exact ⟨rfl, rfl, rfl, rfl, rfl, Or.inl (by simp [mkMergedRow])⟩
    · rw [if_neg hempty] at hrq
      rcases List.mem_map.mp hrq with ⟨rm, hrm, hrq2⟩
      have hsfb : rm.1 ∈ fb := by
        have h1 := (List.mem_filter.mp hrm).1
        unfold fbWithMatch at h1
        rcases List.mem_map.mp h1 with ⟨orig, horig, heq⟩
        have : orig = rm.1 := by rw [← heq]
        rw [← this]
        exact horig
      refine ⟨?_, ?_, ?_, ?_, ?_, Or.inr ⟨rm.1, hsfb, hmatch q rm.1 hrq2.symm⟩⟩ <;>
        simp [← hrq2, mkMergedRow]

/-- A trivial similarity pack used by concrete witnesses. -/
def simZero : SimFns := ⟨fun _ _ => 0, fun _ _ => 0, fun _ _ => 0, fun _ _ => 0⟩

/-- A QS record used by concrete witnesses. -/
def qsW : QSRecord := ⟨("Gamma University"), ("Gamma University"), some 7, ("Freedonia"), ("G City")⟩

/-- Witness for C2: the (empty-feedback) merge of `qsW` satisfies the
theorem at its own row. -/
theorem c2_witness :
    ∃ q ∈ [qsW],
      (mkMergedRow qsW none).institutionName = q.institutionName ∧
      (mkMergedRow qsW none).standardizedNameQs = q.standardizedName ∧
      (mkMergedRow qsW none).cleanRank = q.cleanRank ∧
      (mkMergedRow qsW none).country = q.country ∧
      (mkMergedRow qsW none).cityQs = q.city ∧
      (((mkMergedRow qsW none).qsMatchName = none ∧
          (mkMergedRow qsW none).academicRigor = none ∧
          (mkMergedRow qsW none).culturalDiversity = none ∧
          (mkMergedRow qsW none).openness = none ∧
          (mkMergedRow qsW none).studentLife = none ∧
          (mkMergedRow qsW none).campusSafety = none ∧
          (mkMergedRow qsW none).responseCount = none) ∨
        ∃ s ∈ ([] : List FeedbackRecord),
          (mkMergedRow qsW none).academicRigor =
            (match s.academicRigor with
             | some v => some v
             | none => qsSubjectiveMetric q) ∧
          (mkMergedRow qsW none).culturalDiversity =
            (match s.culturalDiversity with
             | some v => some v
             | none => qsSubjectiveMetric q) ∧
          (mkMergedRow qsW none).openness =
            (match s.openness with
             | some v => some v
             | none => qsSubjectiveMetric q) ∧
          (mkMergedRow qsW none).studentLife =
            (match s.studentLife with
             | some v => some v
             | none => qsSubjectiveMetric q) ∧
          (mkMergedRow qsW none).campusSafety =
            (match s.campusSafety with
             | some v => some v
             | none => qsSubjectiveMetric q) ∧
          (mkMergedRow qsW none).responseCount = some s.responseCount) :=
  c2_merge_metric_precedence simZero [] [qsW] (mkMergedRow qsW none)
    (by simp [mergeDataSources])

theorem joinRows_nil (fbl : List (FeedbackRecord × Option String)) :
    joinRows fbl [] = [] := rfl

theorem joinRows_cons (fbl : List (FeedbackRecord × Option String)) (q : QSRecord)
    (qs : List QSRecord) :
    joinRows fbl (q :: qs) =
      (if (fbl.filter (fun rm => rm.2 = some q.standardizedName)).isEmpty then
        [mkMergedRow q none]
      else
        (fbl.filter (fun rm => rm.2 = some q.standardizedName)).map
          (fun rm => mkMergedRow q (some rm.1))) ++ joinRows fbl qs := by
  simp [joinRows]

theorem joinRows_head_length (fbl : List (FeedbackRecord × Option String)) (q : QSRecord) :
    (if (fbl.filter (fun rm => rm.2 = some q.standardizedName)).isEmpty then
        [mkMergedRow q none]
      else
        (fbl.filter (fun rm => rm.2 = some q.standardizedName)).map
          (fun rm => mkMergedRow q (some rm.1))).length =
      max 1 (fbl.filter (fun rm => rm.2 = some q.standardizedName)).length := by
  split
  · next he =>
      rw [List.isEmpty_iff] at he
      simp [he]
  · next he =>
      rw [List.isEmpty_iff] at he
      simp only [List.length_map]
      rcases hl : (fbl.filter (fun rm => rm.2 = some q.standardizedName)) with _ | ⟨x, xs⟩
      · exact absurd hl he
      · rw [hl]; simp

theorem joinRows_length_ge (fbl : List (FeedbackRecord × Option String)) :
    ∀ qsRows : List QSRecord, qsRows.length ≤ (joinRows fbl qsRows).length := by
  intro qsRows
  induction qsRows with
  | nil => simp [joinRows_nil]
  | cons q qs ih =>
    rw [joinRows_cons, List.length_append, joinRows_head_length]
    simp only [List.length_cons]
    omega

theorem joinRows_length_eq (fbl : List (FeedbackRecord × Option String)) :
    ∀ qsRows : List QSRecord,
      (∀ q ∈ qsRows, (fbl.filter (fun rm => rm.2 = some q.standardizedName)).length ≤ 1) →
      (joinRows fbl qsRows).length = qsRows.length := by
  intro qsRows
  induction qsRows with
  | nil => intro _; simp [joinRows_nil]
  | cons q qs ih =>
    intro hcnt
    rw [joinRows_cons, List.length_append, joinRows_head_length,
      ih (fun q2 hq2 => hcnt q2 (by simp [hq2]))]
    have h1 := hcnt q (by simp)
    simp only [List.length_cons]
    omega

theorem joinRows_unmatched_mem (fbl : List (FeedbackRecord × Option String)) :
    ∀ (qsRows : List QSRecord) (q : QSRecord), q ∈ qsRows →
      fbl.filter (fun rm => rm.2 = some q.standardizedName) = [] →
      mkMergedRow q none ∈ joinRows fbl qsRows := by
  intro qsRows
  induction qsRows with
  | nil => intro q hq; simp at hq
  | cons q0 qs ih =>
    intro q hq hfil
    rw [joinRows_cons, List.mem_append]
    rcases List.mem_cons.mp hq with hq0 | hqs
    · left
      subst hq0
      simp [hfil]
    · exact Or.inr (ih q hqs hfil)

/-- C4 as stated: the merged output always has exactly as many rows as the
primary (QS) input. -/
def c4Claim : Prop :=
  ∀ (f : SimFns) (fb : List FeedbackRecord) (qs : List QSRecord),
    (mergeDataSources f fb qs).length = qs.length

/-- A similarity pack whose four measures are the constant 80, making every
candidate pair's combined score exactly 80. -/
def sim80 : SimFns := ⟨fun _ _ => 80, fun _ _ => 80, fun _ _ => 80, fun _ _ => 80⟩

/-- Two aggregated feedback records with distinct standardized names. -/
def fbAlpha : FeedbackRecord :=
  ⟨("Alpha"), none, none, some 8, none, none, none, none, none, none, none, none, 1⟩

def fbBeta : FeedbackRecord :=
  ⟨("Beta"), none, none, some 6, none, none, none, none, none, none, none, none, 2⟩

/-- A single QS record both feedback records fuzzy-match. -/
def qsGamma : QSRecord := ⟨("Gamma"), ("Gamma"), some 12, ("Freedonia"), ("G City")⟩

theorem stdAlpha : standardizeUniversityName ("Alpha") = ("Alpha") := by decide

theorem stdBeta : standardizeUniversityName ("Beta") = ("Beta") := by decide

theorem stdGamma : standardizeUniversityName ("Gamma") = ("Gamma") := by decide

theorem sim80_combined (a b : String) : combinedScore sim80 a b = 80 := by
  simp [combinedScore, sim80]
  norm_num

theorem c4_eval : mergeDataSources sim80 [fbAlpha, fbBeta] [qsGamma] =
    [mkMergedRow qsGamma (some fbAlpha), mkMergedRow qsGamma (some fbBeta)] := by
  have he1 : ([("Alpha"), ("Beta")] : List String).eraseDups = [("Alpha"), ("Beta")] := by decide
  have he2 : ([("Gamma")] : List String).eraseDups = [("Gamma")] := by decide
  have hbm : ∀ key : String, bestMatchFor sim80 key [("Gamma")] = (some ("Gamma"), 80) := by
    intro key
    simp [bestMatchFor, bestMatchStep, stdGamma, sim80_combined]
  have hfm : findUniversityMatches sim80 [("Alpha"), ("Beta")] [("Gamma")] =
      [(("Alpha"), ("Gamma")), (("Beta"), ("Gamma"))] := by
    simp [findUniversityMatches, hbm, stdAlpha, stdBeta, dictInsert]
  have ha : fbAlpha.standardizedName = ("Alpha") := rfl
  have hb : fbBeta.standardizedName = ("Beta") := rfl
  have hg : qsGamma.standardizedName = ("Gamma") := rfl
  have hfb : fbWithMatch sim80 [fbAlpha, fbBeta] [qsGamma] =
      [(fbAlpha, some ("Gamma")), (fbBeta, some ("Gamma"))] := by
    unfold fbWithMatch
    simp only [List.map_cons, List.map_nil, ha, hb, hg, he1, he2, hfm]
    simp [dictLookup]
  unfold mergeDataSources
  rw [if_neg (by simp)]
  rw [hfb]
  simp [joinRows, hg]

/-- C4 fails on the code: the join key is not unique per primary row — two
distinct feedback universities can both fuzzy-match the same QS record, and
the pandas left join then emits that QS row once per matching feedback row.
With both `Alpha` and `Beta` matching `Gamma` the merge of one QS row
yields two rows. -/
theorem c4_counterexample : ¬ c4Claim := by
  intro h
  have h2 := h sim80 [fbAlpha, fbBeta] [qsGamma]
  rw [c4_eval] at h2
  simp at h2

/-- C4 amended: the output never has fewer rows than the primary input;
unmatched primary records pass through (as a row with null feedback
columns) and unmatched secondary records are dropped, but a primary record
matched by `k ≥ 2` secondary records is emitted `k` times, so the row
counts agree exactly when every primary record is matched by at most one
secondary record. -/
theorem c4_amended (f : SimFns) (fb : List FeedbackRecord) (qs : List QSRecord) :
    qs.length ≤ (mergeDataSources f fb qs).length ∧
    ((∀ q ∈ qs, matchedCount f fb qs q ≤ 1) →
      (mergeDataSources f fb qs).length = qs.length) ∧
    (∀ q ∈ qs, matchedCount f fb qs q = 0 →
      mkMergedRow q none ∈ mergeDataSources f fb qs) := by
  unfold mergeDataSources
  split
  · refine ⟨by simp, fun _ => by simp, fun q hq _ => ?_⟩
    exact List.mem_map.mpr ⟨q, hq, rfl⟩
  · refine ⟨joinRows_length_ge _ qs, fun hcnt => ?_, fun q hq hc => ?_⟩
    · exact joinRows_length_eq _ qs (fun q hq => hcnt q hq)
    · refine joinRows_unmatched_mem _ qs q hq ?_
      have : ((fbWithMatch f fb qs).filter
          (fun rm => rm.2 = some q.standardizedName)).length = 0 := hc
      exact List.length_eq_zero.mp this

/-- Witness for C4's amended claim: with no feedback rows the hypotheses
hold and the merge of one QS record has exactly one row. -/
theorem c4_witness :
    (mergeDataSources simZero [] [qsW]).length = ([qsW] : List QSRecord).length :=
  (c4_amended simZero [] [qsW]).2.1
    (fun q _ => by simp [matchedCount, fbWithMatch])

theorem dictInsert_self_mem (k v : String) :
    ∀ d : List (String × String), (k, v) ∈ dictInsert k v d := by
  intro d
  induction d with
  | nil => simp [dictInsert]
  | cons p rest ih =>
    unfold dictInsert
    split
    · simp
    · simp [ih]

theorem dictInsert_mem_of_ne (k v : String) :
    ∀ (d : List (String × String)) (kv : String × String),
      kv ∈ d → kv.1 ≠ k → kv ∈ dictInsert k v d := by
  intro d
  induction d with
  | nil => intro kv h; simp at h
  | cons p rest ih =>
    intro kv hkv hne
    unfold dictInsert
    rcases List.mem_cons.mp hkv with hp | hr
    · split
      · next hpk =>
          subst hp
          exact absurd hpk hne
      · simp [hp]
    · split
      · simp [hr]
      · simp [ih kv hr hne]

theorem dictInsert_mem_src (k v : String) :
    ∀ (d : List (String × String)) (kv : String × String),
      kv ∈ dictInsert k v d → kv = (k, v) ∨ kv ∈ d := by
  intro d
  induction d with
  | nil => intro kv h; simpa [dictInsert] using h
  | cons p rest ih =>
    intro kv hkv
    unfold dictInsert at hkv
    split at hkv
    · rcases List.mem_cons.mp hkv with h1 | h2
      · exact Or.inl h1
      · exact Or.inr (by simp [h2])
    · rcases List.mem_cons.mp hkv with h1 | h2
      · exact Or.inr (by simp [h1])
      · rcases ih kv h2 with h3 | h4
        · exact Or.inl h3
        · exact Or.inr (by simp [h4])

/-- The invariant carried by `find_university_matches`'s best-candidate
accumulator: a recorded best match stores its own combined score, which
cleared the 80 threshold, and a missing best match keeps score 0. -/
def bmInv (f : SimFns) (key : String) (acc : Option String × ℚ) : Prop :=
  (∀ m, acc.1 = some m → acc.2 = combinedScore f key m ∧ 80 ≤ acc.2) ∧
  (acc.1 = none → acc.2 = 0)

theorem bestMatchStep_inv (f : SimFns) (key : String) (acc : Option String × ℚ)
    (b : String) (h : bmInv f key acc) : bmInv f key (bestMatchStep f key acc b) := by
  unfold bestMatchStep
  dsimp only
  split
  · next hc =>
      refine ⟨fun m hm => ?_, fun hn => by simp at hn⟩
      simp only [Option.some_inj] at hm
      simp [← hm, hc.2]
  · exact h

theorem bestFold_inv (f : SimFns) (key : String) :
    ∀ (l : List String) (acc : Option String × ℚ), bmInv f key acc →
      bmInv f key (l.foldl (bestMatchStep f key) acc) := by
  intro l
  induction l with
  | nil => intro acc h; exact h
  | cons b rest ih =>
    intro acc h
    exact ih _ (bestMatchStep_inv f key acc b h)

theorem bestFold_mono (f : SimFns) (key : String) :
    ∀ (l : List String) (acc : Option String × ℚ),
      acc.2 ≤ (l.foldl (bestMatchStep f key) acc).2 := by
  intro l
  induction l with
  | nil => intro acc; exact le_refl _
  | cons b rest ih =>
    intro acc
    refine le_trans ?_ (ih (bestMatchStep f key acc b))
    unfold bestMatchStep
    dsimp only
    split
    · next hc => exact le_of_lt hc.1
    · exact le_refl _

theorem bestMatchStep_some (f : SimFns) (key : String) (acc : Option String × ℚ)
    (b : String) (m : String) (hm : acc.1 = some m) :
    ∃ m2, (bestMatchStep f key acc b).1 = some m2 := by
  unfold bestMatchStep
  dsimp only
  split
  · exact ⟨_, rfl⟩
  · exact ⟨m, hm⟩

theorem bestFold_some (f : SimFns) (key : String) :
    ∀ (l : List String) (acc : Option String × ℚ) (m : String), acc.1 = some m →
      ∃ m2, (l.foldl (bestMatchStep f key) acc).1 = some m2 := by
  intro l
  induction l with
  | nil => intro acc m hm; exact ⟨m, hm⟩
  | cons b rest ih =>
    intro acc m hm
    rcases bestMatchStep_some f key acc b m hm with ⟨m2, hm2⟩
    rw [List.foldl_cons]
    exact ih _ m2 hm2

theorem bestFold_ge (f : SimFns) (key : String) :
    ∀ (l : List String) (acc : Option String × ℚ) (b : String), bmInv f key acc →
      b ∈ l → 80 ≤ combinedScore f key (standardizeUniversityName b) →
      combinedScore f key (standardizeUniversityName b) ≤
          (l.foldl (bestMatchStep f key) acc).2 ∧
        ∃ m2, (l.foldl (bestMatchStep f key) acc).1 = some m2 := by
  intro l
  induction l with
  | nil => intro acc b _ hb; simp at hb
  | cons b0 rest ih =>
    intro acc b hinv hb hscore
    rcases List.mem_cons.mp hb with hb0 | hbr
    · subst hb0
      rw [List.foldl_cons]
      by_cases hlt : acc.2 < combinedScore f key (standardizeUniversityName b)
      · have hstep : bestMatchStep f key acc b =
            (some (standardizeUniversityName b),
              combinedScore f key (standardizeUniversityName b)) := by
          unfold bestMatchStep
          dsimp only
          rw [if_pos ⟨hlt, hscore⟩]
        rw [hstep]
        refine ⟨?_, bestFold_some f key rest _ _ rfl⟩
        have := bestFold_mono f key rest
          ((some (standardizeUniversityName b), combinedScore f key (standardizeUniversityName b)))
        simpa using this
      · push_neg at hlt
        have hacc1 : ∃ m, acc.1 = some m := by
          rcases hm : acc.1 with _ | m
          · have h0 := hinv.2 hm
            rw [h0] at hlt
            exfalso
            have h80 : (80 : ℚ) ≤ 0 := le_trans hscore hlt
            norm_num at h80
          · exact ⟨m, rfl⟩
        rcases hacc1 with ⟨m, hm⟩
        have hstep_eq : bestMatchStep f key acc b = acc := by
          unfold bestMatchStep
          dsimp only
          split
          · next hc => exact absurd hc.1 (not_lt.mpr hlt)
          · rfl
        rw [hstep_eq]
        refine ⟨le_trans hlt (bestFold_mono f key rest acc), ?_⟩
        exact bestFold_some f key rest acc m hm
    · rw [List.foldl_cons]
      exact ih (bestMatchStep f key acc b0) b
        (bestMatchStep_inv f key acc b0 hinv) hbr hscore

/-- One step of `find_university_matches`'s outer loop over feedback
names. -/
def fmStep (f : SimFns) (qsUnis : List String) (acc : List (String × String))
    (fb : String) : List (String × String) :=
  if fb = ("") then acc
  else
    match (bestMatchFor f (standardizeUniversityName fb) qsUnis).1 with
    | some m => dictInsert (standardizeUniversityName fb) m acc
    | none => acc

theorem findUniversityMatches_eq_fold (f : SimFns) (fbNames qsUnis : List String) :
    findUniversityMatches f fbNames qsUnis = fbNames.foldl (fmStep f qsUnis) [] := rfl

/-- Every dictionary entry scored at least 80. -/
def goodDict (f : SimFns) (d : List (String × String)) : Prop :=
  ∀ kv ∈ d, 80 ≤ combinedScore f kv.1 kv.2

theorem fmStep_good (f : SimFns) (qsUnis : List String) (acc : List (String × String))
    (fb : String) (h : goodDict f acc) : goodDict f (fmStep f qsUnis acc fb) := by
  unfold fmStep
  split
  · exact h
  · rcases hbm : (bestMatchFor f (standardizeUniversityName fb) qsUnis).1 with _ | m
    · exact h
    · intro kv hkv
      rcases dictInsert_mem_src _ _ _ kv hkv with hnew | hold
      · subst hnew
        have hinv := bestFold_inv f (standardizeUniversityName fb) qsUnis (none, 0)
          ⟨fun m2 hm2 => by simp at hm2, fun _ => rfl⟩
        rcases hinv.1 m hbm with ⟨heq, hge⟩
        rw [heq] at hge
        exact hge
      · exact h kv hold

theorem fmFold_good (f : SimFns) (qsUnis : List String) :
    ∀ (l : List String) (d : List (String × String)), goodDict f d →
      goodDict f (l.foldl (fmStep f qsUnis) d) := by
  intro l
  induction l with
  | nil => intro d h; exact h
  | cons fb rest ih =>
    intro d h
    rw [List.foldl_cons]
    exact ih _ (fmStep_good f qsUnis d fb h)

theorem fmStep_pres (f : SimFns) (qsUnis : List String) (acc : List (String × String))
    (fb k0 m0 : String) (hmem : (k0, m0) ∈ acc)
    (hk : (bestMatchFor f k0 qsUnis).1 = some m0) :
    (k0, m0) ∈ fmStep f qsUnis acc fb := by
  unfold fmStep
  split
  · exact hmem
  · rcases hbm : (bestMatchFor f (standardizeUniversityName fb) qsUnis).1 with _ | m
    · exact hmem
    · by_cases hkey : standardizeUniversityName fb = k0
      · rw [hkey] at hbm
        rw [hk] at hbm
        have hm : m = m0 := by
          simpa using hbm.symm
        rw [hkey, hm]
        exact dictInsert_self_mem k0 m0 acc
      · exact dictInsert_mem_of_ne _ _ acc (k0, m0) hmem (by simpa using fun h => hkey h.symm)

theorem fmFold_pres (f : SimFns) (qsUnis : List String) :
    ∀ (l : List String) (d : List (String × String)) (k0 m0 : String),
      (k0, m0) ∈ d → (bestMatchFor f k0 qsUnis).1 = some m0 →
      (k0, m0) ∈ l.foldl (fmStep f qsUnis) d := by
  intro l
  induction l with
  | nil => intro d k0 m0 h _; exact h
  | cons fb rest ih =>
    intro d k0 m0 h hk
    rw [List.foldl_cons]
    exact ih _ k0 m0 (fmStep_pres f qsUnis d fb k0 m0 h hk) hk

theorem fmFold_mem (f : SimFns) (qsUnis : List String) :
    ∀ (l : List String) (d : List (String × String)) (a m : String),
      a ∈ l → a ≠ ("") → (bestMatchFor f (standardizeUniversityName a) qsUnis).1 = some m →
      (standardizeUniversityName a, m) ∈ l.foldl (fmStep f qsUnis) d := by
  intro l
  induction l with
  | nil => intro d a m ha; simp at ha
  | cons fb rest ih =>
    intro d a m ha hne hbm
    rw [List.foldl_cons]
    rcases List.mem_cons.mp ha with hfb | hrest
    · subst hfb
      refine fmFold_pres f qsUnis rest _ _ _ ?_ hbm
      unfold fmStep
      rw [if_neg hne, hbm]
      exact dictInsert_self_mem _ _ d
    · exact ih _ a m hrest hne hbm

/-- C5 as stated: in every matching run, a candidate pair whose combined
weighted similarity is exactly 80 enters the returned mapping, and every
pair strictly below 80 is excluded. -/
def c5Claim : Prop :=
  ∀ (f : SimFns) (fbNames qsNames : List String) (a b : String),
    a ∈ fbNames → b ∈ qsNames → a ≠ ("") →
    (combinedScore f (standardizeUniversityName a) (standardizeUniversityName b) = 80 →
      (standardizeUniversityName a, standardizeUniversityName b) ∈
        findUniversityMatches f fbNames qsNames) ∧
    (combinedScore f (standardizeUniversityName a) (standardizeUniversityName b) < 80 →
      (standardizeUniversityName a, standardizeUniversityName b) ∉
        findUniversityMatches f fbNames qsNames)

/-- A similarity pack scoring 90 against `gamma` and 80 against everything
else (each of the four measures). -/
def simT : SimFns :=
  ⟨fun _ y => if y = ("gamma") then 90 else 80,
   fun _ y => if y = ("gamma") then 90 else 80,
   fun _ y => if y = ("gamma") then 90 else 80,
   fun _ y => if y = ("gamma") then 90 else 80⟩

theorem simT_combined (x y : String) :
    combinedScore simT x y = if String.mk (lowList y.data) = ("gamma") then 90 else 80 := by
  simp only [combinedScore, simT]
  split <;> norm_num

/-- C5 fails on the code: the mapping keeps only the best-scoring candidate
per feedback name.  `Alpha`–`Beta` scores exactly 80 but `Alpha`–`Gamma`
scores 90, so `(Alpha, Beta)` never enters the mapping. -/
theorem c5_counterexample : ¬ c5Claim := by
  intro h
  have hlowB : String.mk (lowList (("Beta") : String).data) = ("beta") := by decide
  have hlowG : String.mk (lowList (("Gamma") : String).data) = ("gamma") := by decide
  have hcB : combinedScore simT ("Alpha") ("Beta") = 80 := by
    rw [simT_combined, hlowB]
    decide
  have hcG : combinedScore simT ("Alpha") ("Gamma") = 90 := by
    rw [simT_combined, hlowG]
    decide
  have heval : findUniversityMatches simT [("Alpha")] [("Beta"), ("Gamma")] =
      [(("Alpha"), ("Gamma"))] := by
    rw [findUniversityMatches_eq_fold]
    have hbm : bestMatchFor simT ("Alpha") [("Beta"), ("Gamma")] = (some ("Gamma"), 90) := by
      unfold bestMatchFor
      rw [List.foldl_cons, List.foldl_cons, List.foldl_nil]
      have h1 : bestMatchStep simT ("Alpha") (none, 0) ("Beta") = (some ("Beta"), 80) := by
        unfold bestMatchStep
        dsimp only
        rw [stdBeta, hcB]
        norm_num
      rw [h1]
      unfold bestMatchStep
      dsimp only
      rw [stdGamma, hcG]
      norm_num
    rw [List.foldl_cons, List.foldl_nil]
    unfold fmStep
    rw [if_neg (by decide), stdAlpha, hbm]
    rfl
  have h2 := (h simT [("Alpha")] [("Beta"), ("Gamma")] ("Alpha") ("Beta")
    (by simp) (by simp) (by decide)).1
  rw [stdAlpha, stdBeta] at h2
  have h3 := h2 hcB
  rw [heval] at h3
  simp at h3

/-- C5 amended: the 80 threshold is inclusive but only for the best
candidate: every pair in the returned mapping scored at least 80, and
whenever some candidate pair scores `≥ 80` (in particular exactly 80) the
feedback name is mapped — to a candidate scoring at least as much, which is
the given pair only when no other candidate beats it. -/
theorem c5_amended (f : SimFns) (fbNames qsNames : List String) :
    (∀ kv ∈ findUniversityMatches f fbNames qsNames, 80 ≤ combinedScore f kv.1 kv.2) ∧
    (∀ a ∈ fbNames, a ≠ ("") → ∀ b ∈ qsNames,
      80 ≤ combinedScore f (standardizeUniversityName a) (standardizeUniversityName b) →
      ∃ c, (standardizeUniversityName a, c) ∈ findUniversityMatches f fbNames qsNames ∧
        combinedScore f (standardizeUniversityName a) (standardizeUniversityName b) ≤
          combinedScore f (standardizeUniversityName a) c) := by
  constructor
  · intro kv hkv
    rw [findUniversityMatches_eq_fold] at hkv
    exact fmFold_good f qsNames fbNames [] (by intro kv2 h2; simp at h2) kv hkv
  · intro a ha hne b hb hscore
    have hinv0 : bmInv f (standardizeUniversityName a) (none, 0) :=
      ⟨fun m hm => by simp at hm, fun _ => rfl⟩
    have hge := bestFold_ge f (standardizeUniversityName a) qsNames (none, 0) b hinv0 hb hscore
    rcases hge.2 with ⟨m2, hm2⟩
    have hinv := bestFold_inv f (standardizeUniversityName a) qsNames (none, 0) hinv0
    have hscore2 := (hinv.1 m2 hm2).1
    refine ⟨m2, ?_, ?_⟩
    · rw [findUniversityMatches_eq_fold]
      exact fmFold_mem f qsNames fbNames [] a m2 ha hne hm2
    · rw [← hscore2]
      exact hge.1
  
/-- Witness for C5's amended claim: with constant-80 similarities the
single pair `Alpha`–`Beta` scores exactly 80 and is matched. -/
theorem c5_witness :
    ∃ c, (standardizeUniversityName ("Alpha"), c) ∈
        findUniversityMatches sim80 [("Alpha")] [("Beta")] ∧
      combinedScore sim80 (standardizeUniversityName ("Alpha"))
          (standardizeUniversityName ("Beta")) ≤
        combinedScore sim80 (standardizeUniversityName ("Alpha")) c :=
  (c5_amended sim80 [("Alpha")] [("Beta")]).2 ("Alpha") (by simp) (by decide)
    ("Beta") (by simp) (by rw [sim80_combined])

/-- Location criterion satisfied: a preference is given and met. -/
def locationSat (u : Univ) (p : Profile) : Prop :=
  p.preferredCountries ≠ [] ∧ u.country ∈ p.preferredCountries

/-- Location precondition: the profile specifies preferred countries. -/
def locationPre (p : Profile) : Prop := p.preferredCountries ≠ []

def languageSat (u : Univ) (p : Profile) : Prop :=
  p.languageRequirements ≠ [] ∧ u.languagesOfInstruction ≠ [] ∧
    p.languageRequirements.any (fun lang => u.languagesOfInstruction.contains lang) = true

def languagePre (p : Profile) : Prop := p.languageRequirements ≠ []

def climateSat (u : Univ) (p : Profile) : Prop :=
  ∃ c, p.preferredClimate = some c ∧ c ≠ ("") ∧ u.climateType = some c

def climatePre (p : Profile) : Prop :=
  ∃ c, p.preferredClimate = some c ∧ c ≠ ("")

def accomSat (u : Univ) (p : Profile) : Prop :=
  p.accommodationRequired = true ∧ u.accommodationAvailable = true

def accomPre (p : Profile) : Prop := p.accommodationRequired = true

def costSat (u : Univ) (p : Profile) : Prop :=
  ∃ t b, u.tuitionInternational = some t ∧ p.maxTuitionBudget = some b ∧ b ≠ 0 ∧ t ≤ b

def costPre (p : Profile) : Prop :=
  ∃ b, p.maxTuitionBudget = some b ∧ b ≠ 0

/-- Cost criterion data precondition as the code guards it: tuition present
and a truthy budget. -/
def costDataPre (u : Univ) (p : Profile) : Prop :=
  ∃ t b, u.tuitionInternational = some t ∧ p.maxTuitionBudget = some b ∧ b ≠ 0

def costWeight (p : Profile) : ℚ := (p.costImportance : ℚ) / 5 * 10

/-- C1 as stated: each binary/categorical criterion puts its full weight in
the numerator exactly when satisfied, and puts its weight in the
denominator whenever the profile specifies the corresponding preference. -/
def c1Claim : Prop :=
  ∀ (u : Univ) (p : Profile), validProfile p →
    (((locationPart u p).num = 5 ↔ locationSat u p) ∧
      (locationPre p → (locationPart u p).den = 5)) ∧
    (((languagePart u p).num = 5 ↔ languageSat u p) ∧
      (languagePre p → (languagePart u p).den = 5)) ∧
    (((climatePart u p).num = 5 ↔ climateSat u p) ∧
      (climatePre p → (climatePart u p).den = 5)) ∧
    (((accomPart u p).num = 5 ↔ accomSat u p) ∧
      (accomPre p → (accomPart u p).den = 5)) ∧
    (((costPart u p).num = costWeight p ↔ costSat u p) ∧
      (costPre p → (costPart u p).den = costWeight p))

/-- A university with a climate that does not match the preference and no
accommodation, with every other datum absent. -/
def uCex : Univ :=
  ⟨none, none, none, none, none, none, none, ("X"), [], some ("Tropical"), false⟩

/-- A valid profile that specifies a climate preference and requires
accommodation. -/
def pCex : Profile :=
  ⟨3, 3, 3, 3, 3, 3, 3, none, [], some ("Temperate"), [], true, none⟩

theorem pCex_valid : validProfile pCex := by
  refine ⟨?_, ?_, ?_, ?_, ?_, ?_, ?_, ?_⟩ <;> simp [pCex, validProfile]

/-- C1 fails on the code: for the climate criterion the profile specifies a
preference (`Temperate`) but the university's climate differs, and the
source adds the weight to the denominator only inside the satisfied branch
— so the denominator contribution is 0, not 5.  (The accommodation
criterion misbehaves the same way.) -/
theorem c1_counterexample : ¬ c1Claim := by
  intro h
  have hpre : climatePre pCex := ⟨("Temperate"), rfl, by decide⟩
  have h2 := ((h uCex pCex pCex_valid).2.2.1).2 hpre
  have h3 : (climatePart uCex pCex).den = 0 := by
    simp [climatePart, uCex, pCex]
  rw [h3] at h2
  norm_num at h2

/-- C1 amended: the numerator halves hold as claimed for all five
criteria, and location and language always put their weight in the
denominator; but climate and accommodation put their weight in the
denominator only when the criterion is **satisfied**, and the cost
criterion only when both the tuition datum and a truthy budget are present
(not merely when the profile states a budget). -/
theorem c1_amended (u : Univ) (p : Profile) (hp : validProfile p) :
    ((locationPart u p).num = 5 ↔ locationSat u p) ∧
    (locationPart u p).den = 5 ∧
    ((languagePart u p).num = 5 ↔ languageSat u p) ∧
    (languagePart u p).den = 5 ∧
    ((climatePart u p).num = 5 ↔ climateSat u p) ∧
    (climateSat u p → (climatePart u p).den = 5) ∧
    (¬ climateSat u p → (climatePart u p).den = 0) ∧
    ((accomPart u p).num = 5 ↔ accomSat u p) ∧
    (accomSat u p → (accomPart u p).den = 5) ∧
    (¬ accomSat u p → (accomPart u p).den = 0) ∧
    ((costPart u p).num = costWeight p ↔ costSat u p) ∧
    (costDataPre u p → (costPart u p).den = costWeight p) ∧
    (¬ costDataPre u p → (costPart u p).den = 0) := by
  have hw : 0 < costWeight p := by
    have h1 : 1 ≤ p.costImportance := hp.2.2.2.2.2.1.1
    have h2 : (1 : ℚ) ≤ (p.costImportance : ℚ) := by exact_mod_cast h1
    unfold costWeight
    nlinarith
  have hloc : ((locationPart u p).num = 5 ↔ locationSat u p) ∧ (locationPart u p).den = 5 := by
    unfold locationPart locationSat
    split
    · next hc => exact ⟨⟨fun _ => hc, fun _ => rfl⟩, rfl⟩
    · next hc =>
        refine ⟨⟨fun h0 => absurd h0 (by norm_num), fun hs => absurd hs hc⟩, rfl⟩
  have hlang : ((languagePart u p).num = 5 ↔ languageSat u p) ∧ (languagePart u p).den = 5 := by
    unfold languagePart languageSat
    split
    · next hc => exact ⟨⟨fun _ => hc, fun _ => rfl⟩, rfl⟩
    · next hc =>
        refine ⟨⟨fun h0 => absurd h0 (by norm_num), fun hs => absurd hs hc⟩, rfl⟩
  have hclim : ((climatePart u p).num = 5 ↔ climateSat u p) ∧
      (climateSat u p → (climatePart u p).den = 5) ∧
      (¬ climateSat u p → (climatePart u p).den = 0) := by
    unfold climatePart climateSat
    rcases hpc : p.preferredClimate with _ | c
    · refine ⟨⟨fun h0 => ?_, ?_⟩, ?_, fun _ => rfl⟩
      · simp at h0
      · rintro ⟨c, hc, -⟩
        exact absurd hc (by simp)
      · rintro ⟨c, hc, -⟩
        exact absurd hc (by simp)
    · dsimp only
      split
      · next hcond =>
          exact ⟨⟨fun _ => ⟨c, rfl, hcond.1, hcond.2⟩, fun _ => rfl⟩, fun _ => rfl,
            fun hns => absurd ⟨c, rfl, hcond.1, hcond.2⟩ hns⟩
      · next hcond =>
          have hnosat : ¬ (∃ c2, some c = some c2 ∧ c2 ≠ ("") ∧ u.climateType = some c2) := by
            rintro ⟨c2, hc2, hne, hct⟩
            simp only [Option.some_inj] at hc2
            subst hc2
            exact hcond ⟨hne, hct⟩
          exact ⟨⟨fun h0 => absurd h0 (by norm_num), fun hs => absurd hs hnosat⟩,
            fun hs => absurd hs hnosat, fun _ => rfl⟩
  have hacc : ((accomPart u p).num = 5 ↔ accomSat u p) ∧
      (accomSat u p → (accomPart u p).den = 5) ∧
      (¬ accomSat u p → (accomPart u p).den = 0) := by
    unfold accomPart accomSat
    split
    · next hc => exact ⟨⟨fun _ => hc, fun _ => rfl⟩, fun _ => rfl, fun hns => absurd hc hns⟩
    · next hc =>
        exact ⟨⟨fun h0 => absurd h0 (by norm_num), fun hs => absurd hs hc⟩,
          fun hs => absurd hs hc, fun _ => rfl⟩
  have hcost : ((costPart u p).num = costWeight p ↔ costSat u p) ∧
      (costDataPre u p → (costPart u p).den = costWeight p) ∧
      (¬ costDataPre u p → (costPart u p).den = 0) := by
    unfold costPart costSat costDataPre
    rcases htu : u.tuitionInternational with _ | t
    · refine ⟨⟨fun h0 => ?_, ?_⟩, ?_, fun _ => rfl⟩
      · exact absurd h0.symm (by simpa using ne_of_gt hw)
      · rintro ⟨t, b, hts, -⟩
        exact absurd hts (by simp)
      · rintro ⟨t, b, hts, -⟩
        exact absurd hts (by simp)
    · rcases hbu : p.maxTuitionBudget with _ | b
      · refine ⟨⟨fun h0 => ?_, ?_⟩, ?_, fun _ => rfl⟩
        · exact absurd h0.symm (by simpa using ne_of_gt hw)
        · rintro ⟨t2, b2, -, hbs, -⟩
          exact absurd hbs (by simp)
        · rintro ⟨t2, b2, -, hbs, -⟩
          exact absurd hbs (by simp)
      · dsimp only
        by_cases hb0 : b = 0
        · subst hb0
          rw [if_neg (by simp)]
          refine ⟨⟨fun h0 => absurd h0.symm (ne_of_gt hw), ?_⟩, ?_, fun _ => rfl⟩
          · rintro ⟨t2, b2, -, hbs, hbne, -⟩
            simp only [Option.some_inj] at hbs
            exact (hbne hbs.symm).elim
          · rintro ⟨t2, b2, -, hbs, hbne⟩
            simp only [Option.some_inj] at hbs
            exact (hbne hbs.symm).elim
        · rw [if_pos hb0]
          have hb : 0 ≤ b := hp.2.2.2.2.2.2.2 b hbu
          have hbpos : 0 < b := lt_of_le_of_ne hb (Ne.symm hb0)
          by_cases hle : t ≤ b
          · rw [if_pos hle]
            exact ⟨⟨fun _ => ⟨t, b, rfl, rfl, hb0, hle⟩, fun _ => rfl⟩,
              fun _ => rfl, fun hnp => absurd ⟨t, b, rfl, rfl, hb0⟩ hnp⟩
          · rw [if_neg hle]
            push_neg at hle
            have htpos : 0 < t := lt_trans hbpos hle
            have hr1 : b / t < 1 := (div_lt_one htpos).mpr hle
            have hr0 : 0 ≤ b / t := div_nonneg hb (le_of_lt htpos)
            have hmax : max 0 (b / t) = b / t := max_eq_right hr0
            have hlt : costWeight p * max 0 (b / t) < costWeight p := by
              rw [hmax]
              calc costWeight p * (b / t) < costWeight p * 1 :=
                    mul_lt_mul_of_pos_left hr1 hw
                _ = costWeight p := mul_one _
            refine ⟨⟨fun h0 => absurd h0 (ne_of_lt hlt), ?_⟩, fun _ => rfl,
              fun hnp => absurd ⟨t, b, rfl, rfl, hb0⟩ hnp⟩
            rintro ⟨t2, b2, hts, hbs, -, hle2⟩
            simp only [Option.some_inj] at hts hbs
            rw [← hts, ← hbs] at hle2
            exact absurd hle2 (not_le.mpr hle)
  exact ⟨hloc.1, hloc.2, hlang.1, hlang.2, hclim.1, hclim.2.1, hclim.2.2,
    hacc.1, hacc.2.1, hacc.2.2, hcost.1, hcost.2.1, hcost.2.2⟩

/-- Witness for C1's amended claim at a concrete valid profile: the
location weight is always counted in the denominator. -/
theorem c1_witness : validProfile pCex ∧ (locationPart uCex pCex).den = 5 :=
  ⟨pCex_valid, (c1_amended uCex pCex pCex_valid).2.1⟩

theorem digit_ne_of_not_digit (c x : Char) (h : isDigitCh c = true)
    (hx : isDigitCh x = false) : c ≠ x := by
  intro he
  rw [he, hx] at h
  exact Bool.noConfusion h

theorem digit_not_space (c : Char) (h : isDigitCh c = true) : isSpaceCh c = false := by
  by_contra hne
  have hsp : isSpaceCh c = true := by
    revert hne
    rcases isSpaceCh c with _ | _ <;> simp
  simp only [isSpaceCh, decide_eq_true_eq] at hsp
  rcases hsp with h1 | h1 | h1 | h1 | h1 | h1 <;> (subst h1; exact absurd h (by decide))

theorem dropWhile_eq_self_of_head (p : Char → Bool) (l : List Char)
    (h : ∀ c ∈ l, p c = false) : l.dropWhile p = l := by
  cases l with
  | nil => rfl
  | cons c rest => simp [List.dropWhile_cons, h c (by simp)]

theorem pyStrip_eq_self (l : List Char) (h : ∀ c ∈ l, isSpaceCh c = false) :
    pyStrip l = l := by
  unfold pyStrip
  rw [dropWhile_eq_self_of_head _ l h,
    dropWhile_eq_self_of_head _ l.reverse (fun c hc => h c (List.mem_reverse.mp hc)),
    List.reverse_reverse]

theorem map_eq_self_of (f : Char → Char) :
    ∀ l : List Char, (∀ c ∈ l, f c = c) → l.map f = l := by
  intro l
  induction l with
  | nil => intro _; rfl
  | cons c rest ih =>
    intro h
    rw [List.map_cons, h c (by simp), ih (fun c2 hc2 => h c2 (by simp [hc2]))]

theorem lowList_eq_self_digits (l : List Char) (h : ∀ c ∈ l, isDigitCh c = true) :
    lowList l = l := by
  unfold lowList
  refine map_eq_self_of lowChar l (fun c hc => ?_)
  have hd := h c hc
  simp only [isDigitCh, Bool.and_eq_true, decide_eq_true_eq] at hd
  unfold lowChar
  rw [if_neg]
  rintro ⟨hA, -⟩
  exact absurd (le_trans hA hd.2) (by decide)

theorem leadsWith_mem (w : List Char) :
    ∀ l : List Char, leadsWith w l = true → ∀ c ∈ w, c ∈ l := by
  induction w with
  | nil => intro l _ c hc; simp at hc
  | cons p ps ih =>
    intro l hl c hc
    cases l with
    | nil => simp [leadsWith] at hl
    | cons x xs =>
      simp only [leadsWith, Bool.and_eq_true, decide_eq_true_eq] at hl
      rcases List.mem_cons.mp hc with hcp | hcps
      · simp [hcp, ← hl.1]
      · simp [ih xs hl.2 c hcps]

theorem containsSeq_mem (w : List Char) :
    ∀ l : List Char, containsSeq w l = true → ∀ c ∈ w, c ∈ l := by
  intro l
  induction l with
  | nil =>
    intro h c hc
    unfold containsSeq at h
    rw [List.isEmpty_iff] at h
    subst h
    simp at hc
  | cons x xs ih =>
    intro h c hc
    unfold containsSeq at h
    rw [decide_eq_true_eq] at h
    rcases h with h1 | h2
    · exact leadsWith_mem w (x :: xs) h1 c hc
    · simp [ih h2 c hc]

theorem takeWhile_eq_self_of_all (p : Char → Bool) :
    ∀ l : List Char, (∀ c ∈ l, p c = true) → l.takeWhile p = l := by
  intro l
  induction l with
  | nil => intro _; rfl
  | cons c rest ih =>
    intro h
    simp [List.takeWhile_cons, h c (by simp), ih (fun c2 hc2 => h c2 (by simp [hc2]))]

theorem digitsUTail_of_all (l : List Char) (h : ∀ c ∈ l, isDigitCh c = true) :
    digitsUTail l = true := by
  induction l with
  | nil => rfl
  | cons c rest ih =>
    unfold digitsUTail
    rw [if_pos (h c (by simp))]
    exact ih (fun c2 hc2 => h c2 (by simp [hc2]))

theorem contains_eq_false_of_digits (l : List Char) (x : Char)
    (h : ∀ c ∈ l, isDigitCh c = true) (hx : isDigitCh x = false) :
    l.contains x = false := by
  rw [List.contains_eq_any_beq, List.any_eq_false]
  intro c hc
  simp only [beq_iff_eq]
  exact (digit_ne_of_not_digit c x (h c hc) hx).symm

theorem nullwords_false_of_digits (t : List Char) (h : ∀ c ∈ t, isDigitCh c = true) :
    (rankNullWords.any (fun w => containsSeq w (lowList t))) = false := by
  rw [lowList_eq_self_digits t h, List.any_eq_false]
  intro w hw
  simp only [Bool.not_eq_true]
  by_contra hne
  have hcs : containsSeq w t = true := by
    revert hne
    rcases containsSeq w t with _ | _ <;> simp
  have hn : ∃ c, c ∈ w ∧ isDigitCh c = false := by
    simp only [rankNullWords, List.mem_cons, List.mem_singleton, List.not_mem_nil,
      or_false] at hw
    rcases hw with rfl | rfl | rfl | rfl
    · exact ⟨'n', by decide, by decide⟩
    · exact ⟨'u', by decide, by decide⟩
    · exact ⟨'n', by decide, by decide⟩
    · exact ⟨'n', by decide, by decide⟩
  rcases hn with ⟨c, hcw, hcd⟩
  have hmem := containsSeq_mem w t hcs c hcw
  rw [h c hmem] at hcd
  exact Bool.noConfusion hcd

/-- C9 fails on the code: the two rank parsers disagree.  `_parse_ranking`
strips a leading `#` and extracts the digit run, returning 3 for `"#3"`;
`clean_qs_rank` only strips `=` and then calls `int()`, which raises on
`"#3"`, giving null.  (`"Top 50"` likewise: 50 vs null.) -/
theorem c9_counterexample :
    cleanQsRank (some ("#3")) ≠ parseRanking (some ("#3")) := by decide

/-- C9 amended: the two parsers agree on every nonempty pure digit string,
both returning its numeric value; they differ on inputs with `#` prefixes,
digits embedded in text, or `na`-like markers. -/
theorem c9_amended (s : String) (hne : s.data ≠ [])
    (hdig : ∀ c ∈ s.data, isDigitCh c = true) :
    cleanQsRank (some s) = parseRanking (some s) ∧
      parseRanking (some s) = some ((digitsToNat s.data : ℤ)) := by
  obtain ⟨c, rest, hsd⟩ : ∃ c rest, s.data = c :: rest := by
    cases hl : s.data with
    | nil => exact absurd hl hne
    | cons c rest => exact ⟨c, rest, rfl⟩
  have hc : isDigitCh c = true := hdig c (by rw [hsd]; simp)
  have hrest : ∀ c2 ∈ rest, isDigitCh c2 = true := fun c2 hc2 =>
    hdig c2 (by rw [hsd]; simp [hc2])
  have hdig2 : ∀ x ∈ c :: rest, isDigitCh x = true := by rw [← hsd]; exact hdig
  have hstrip : pyStrip (c :: rest) = c :: rest :=
    pyStrip_eq_self _ (fun x hx => digit_not_space x (hdig2 x hx))
  have hcm : (c :: rest).contains '-' = false :=
    contains_eq_false_of_digits _ '-' hdig2 (by decide)
  have hcp : (c :: rest).contains '+' = false :=
    contains_eq_false_of_digits _ '+' hdig2 (by decide)
  have hnw : (rankNullWords.any (fun w => containsSeq w (lowList (c :: rest)))) = false :=
    nullwords_false_of_digits _ hdig2
  have hpr : parseRanking (some s) = some ((digitsToNat s.data : ℤ)) := by
    unfold parseRanking
    dsimp only
    rw [hsd, hstrip, hnw, if_neg (by simp)]
    dsimp only
    have hpfx : ¬(c = '=' ∨ c = '#' ∨ c = '+') := by
      rintro (h1 | h1 | h1) <;>
        exact absurd h1 (digit_ne_of_not_digit c _ hc (by decide))
    rw [if_neg hpfx, hcm, if_neg (show ¬(false = true) by simp), hcp,
      if_neg (show ¬(false = true) by simp)]
    unfold findDigitRun
    rw [if_pos hc, takeWhile_eq_self_of_all _ rest hrest]
  refine ⟨?_, hpr⟩
  rw [hpr]
  unfold cleanQsRank
  dsimp only
  rw [hsd, hstrip]
  dsimp only
  rw [if_neg (digit_ne_of_not_digit c '=' hc (by decide))]
  rw [hcm, if_neg (show ¬(false = true) by simp), hcp,
    if_neg (show ¬(false = true) by simp)]
  unfold pyInt
  rw [hstrip]
  dsimp only
  rw [if_neg (digit_ne_of_not_digit c '+' hc (by decide)),
    if_neg (digit_ne_of_not_digit c '-' hc (by decide))]
  have hok : digitsUOk (c :: rest) = true := by
    unfold digitsUOk
    dsimp only
    rw [decide_eq_true_eq]
    exact ⟨hc, digitsUTail_of_all rest hrest⟩
  rw [if_pos hok]
  have hfil : (c :: rest).filter (fun x => x ≠ usChar) = c :: rest := by
    rw [List.filter_eq_self]
    intro a ha
    simp only [ne_eq, decide_eq_true_eq]
    exact digit_ne_of_not_digit a usChar (hdig2 a ha) (by decide)
  unfold digitsUVal
  rw [hfil]

/-- Witness for C9's amended claim at the digit string `"42"`. -/
theorem c9_witness :
    cleanQsRank (some ("42")) = parseRanking (some ("42")) ∧
      parseRanking (some ("42")) = some ((digitsToNat (("42") : String).data : ℤ)) :=
  c9_amended ("42") (by decide) (by decide)

theorem leadsWith_parts (w : List Char) :
    ∀ l : List Char, leadsWith w l = true → ∃ t, l = w ++ t := by
  induction w with
  | nil => intro l _; exact ⟨l, rfl⟩
  | cons p ps ih =>
    intro l hl
    cases l with
    | nil => simp [leadsWith] at hl
    | cons x xs =>
      simp only [leadsWith, Bool.and_eq_true, decide_eq_true_eq] at hl
      rcases ih xs hl.2 with ⟨t, ht⟩
      exact ⟨t, by simp [← hl.1, ht]⟩

theorem leadsWith_self_append (w : List Char) : ∀ t : List Char, leadsWith w (w ++ t) = true := by
  induction w with
  | nil => intro t; rfl
  | cons p ps ih =>
    intro t
    rw [List.cons_append]
    unfold leadsWith
    rw [decide_eq_true_eq]
    exact ⟨rfl, ih t⟩

theorem containsSeq_of_parts (w : List Char) :
    ∀ (a b : List Char), containsSeq w (a ++ w ++ b) = true := by
  intro a
  induction a with
  | nil =>
    intro b
    show containsSeq w (w ++ b) = true
    cases hw : w ++ b with
    | nil =>
      rcases List.append_eq_nil.mp hw with ⟨h1, h2⟩
      subst h1
      subst h2
      rfl
    | cons x xs =>
      unfold containsSeq
      rw [decide_eq_true_eq]
      exact Or.inl (hw ▸ leadsWith_self_append w b)
  | cons x a2 ih =>
    intro b
    show containsSeq w (x :: (a2 ++ w ++ b)) = true
    unfold containsSeq
    rw [decide_eq_true_eq]
    exact Or.inr (ih b)

theorem containsSeq_parts (w : List Char) :
    ∀ l : List Char, containsSeq w l = true → ∃ a b, l = a ++ w ++ b := by
  intro l
  induction l with
  | nil =>
    intro h
    unfold containsSeq at h
    rw [List.isEmpty_iff] at h
    exact ⟨[], [], by simp [h]⟩
  | cons x xs ih =>
    intro h
    unfold containsSeq at h
    rw [decide_eq_true_eq] at h
    rcases h with h1 | h2
    · rcases leadsWith_parts w (x :: xs) h1 with ⟨t, ht⟩
      exact ⟨[], t, by simp [ht]⟩
    · rcases ih h2 with ⟨a, b, hab⟩
      exact ⟨x :: a, b, by simp [hab]⟩

theorem map_split (f : Char → Char) :
    ∀ (u l v : List Char), l.map f = u ++ v →
      ∃ lu lv, l = lu ++ lv ∧ lu.map f = u ∧ lv.map f = v := by
  intro u
  induction u with
  | nil => intro l v h; exact ⟨[], l, rfl, rfl, h⟩
  | cons x u2 ih =>
    intro l v h
    cases l with
    | nil => simp at h
    | cons c l2 =>
      rw [List.map_cons, List.cons_append, List.cons.injEq] at h
      rcases ih l2 v h.2 with ⟨lu, lv, h1, h2, h3⟩
      exact ⟨c :: lu, lv, by simp [h1], by simp [h.1, h2], h3⟩

theorem dropWhile_append_cases (p : Char → Bool) :
    ∀ (a r : List Char), (a ++ r).dropWhile p = a.dropWhile p ++ r ∨
      (a.dropWhile p = [] ∧ (a ++ r).dropWhile p = r.dropWhile p) := by
  intro a
  induction a with
  | nil => intro r; exact Or.inr ⟨rfl, by rw [List.nil_append]⟩
  | cons c a2 ih =>
    intro r
    by_cases hc : p c = true
    · have e1 : ((c :: a2) ++ r).dropWhile p = (a2 ++ r).dropWhile p := by
        simp [List.dropWhile_cons, hc]
      have e2 : (c :: a2).dropWhile p = a2.dropWhile p := by
        simp [List.dropWhile_cons, hc]
      rw [e1, e2]
      exact ih r
    · have hc2 : p c = false := by
        revert hc
        rcases p c with _ | _ <;> simp
      left
      simp [List.dropWhile_cons, hc2]

theorem dropWhile_parts (p : Char → Bool) (a m b : List Char) (d : Char) (m2 : List Char)
    (hm : m = d :: m2) (hd : p d = false) :
    ∃ a2, (a ++ m ++ b).dropWhile p = a2 ++ m ++ b := by
  have hassoc : a ++ m ++ b = a ++ (m ++ b) := List.append_assoc a m b
  rw [hassoc]
  have hmb : (m ++ b).dropWhile p = m ++ b := by
    rw [hm, List.cons_append, List.dropWhile_cons, hd]
    simp
  rcases dropWhile_append_cases p a (m ++ b) with h1 | h2
  · exact ⟨a.dropWhile p, by rw [h1, List.append_assoc]⟩
  · exact ⟨[], by rw [h2.2, hmb]; simp⟩

theorem pyStrip_parts (a m b : List Char) (hne : m ≠ [])
    (hns : ∀ c ∈ m, isSpaceCh c = false) :
    ∃ a2 b2, pyStrip (a ++ m ++ b) = a2 ++ m ++ b2 := by
  obtain ⟨d, m2, hm⟩ : ∃ d m2, m = d :: m2 := by
    rcases hq : m with _ | ⟨d, m2⟩
    · exact absurd hq hne
    · exact ⟨d, m2, rfl⟩
  obtain ⟨e, e2, he⟩ : ∃ e e2, m.reverse = e :: e2 := by
    rcases hrev : m.reverse with _ | ⟨e, e2⟩
    · exact absurd (List.reverse_eq_nil_iff.mp hrev) hne
    · exact ⟨e, e2, rfl⟩
  have hens : isSpaceCh e = false := by
    refine hns e (List.mem_reverse.mp ?_)
    rw [he]
    simp
  unfold pyStrip
  rcases dropWhile_parts isSpaceCh a m b d m2 hm (hns d (by rw [hm]; simp)) with ⟨a2, ha2⟩
  rw [ha2]
  have hrev1 : (a2 ++ m ++ b).reverse = b.reverse ++ m.reverse ++ a2.reverse := by
    simp
  rw [hrev1]
  rcases dropWhile_parts isSpaceCh b.reverse m.reverse a2.reverse e e2 he hens with ⟨b2, hb2⟩
  rw [hb2]
  refine ⟨a2, b2.reverse, ?_⟩
  simp

theorem space_lowChar_self (c : Char) (h : isSpaceCh c = true) : lowChar c = c := by
  simp only [isSpaceCh, decide_eq_true_eq] at h
  rcases h with h1 | h1 | h1 | h1 | h1 | h1 <;> (subst h1; decide)

theorem containsSeq_lowList_strip (w l : List Char) (hwne : w ≠ [])
    (hns : ∀ c ∈ w, isSpaceCh c = false)
    (h : containsSeq w (lowList l) = true) :
    containsSeq w (lowList (pyStrip l)) = true := by
  rcases containsSeq_parts w (lowList l) h with ⟨a, b, hab⟩
  have hab2 : List.map lowChar l = (a ++ w) ++ b := hab
  rcases map_split lowChar (a ++ w) l b hab2 with ⟨luw, lv, hsplit1, hmap1, hmapb⟩
  rcases map_split lowChar a luw w hmap1 with ⟨la, lm, hsplit2, hmapa, hmapm⟩
  have hlm_ne : lm ≠ [] := by
    intro hnil
    rw [hnil] at hmapm
    exact hwne hmapm.symm
  have hlm_ns : ∀ c ∈ lm, isSpaceCh c = false := by
    intro c hc
    by_contra hcs
    have hsp : isSpaceCh c = true := by
      revert hcs
      rcases isSpaceCh c with _ | _ <;> simp
    have hlc : lowChar c = c := space_lowChar_self c hsp
    have hcw : c ∈ w := by
      rw [← hmapm]
      rcases List.mem_map.mpr ⟨c, hc, hlc⟩ with hx
      exact hx
    rw [hns c hcw] at hsp
    exact Bool.noConfusion hsp
  have hl : l = la ++ lm ++ lv := by rw [hsplit1, hsplit2]
  rcases pyStrip_parts la lm lv hlm_ne hlm_ns with ⟨a2, b2, hstrip⟩
  rw [hl, hstrip]
  unfold lowList
  rw [List.map_append, List.map_append, hmapm]
  exact containsSeq_of_parts w _ _

/-- C10: for every input whose lowercased form contains one of the
"not ranked" markers (`not`, `unranked`, `n/a`, `na`) as a substring,
`_parse_ranking` returns null even when the input also contains digits. -/
theorem c10_null_markers (s : String) (w : List Char) (hw : w ∈ rankNullWords)
    (hcs : containsSeq w (lowList s.data) = true) :
    parseRanking (some s) = none := by
  have hfacts : w ≠ [] ∧ (∀ c ∈ w, isSpaceCh c = false) := by
    simp only [rankNullWords, List.mem_cons, List.mem_singleton, List.not_mem_nil,
      or_false] at hw
    rcases hw with rfl | rfl | rfl | rfl <;> exact ⟨by decide, by decide⟩
  have hmain : containsSeq w (lowList (pyStrip s.data)) = true :=
    containsSeq_lowList_strip w s.data hfacts.1 hfacts.2 hcs
  unfold parseRanking
  dsimp only
  rw [if_pos]
  rw [List.any_eq_true]
  exact ⟨w, hw, hmain⟩

/-- Witness for C10 at `"12 Canada"`, which contains both a digit run and
the marker `na`. -/
theorem c10_witness : parseRanking (some ("12 Canada")) = none :=
  c10_null_markers ("12 Canada") (("na").data) (by decide) (by decide)

theorem char_toNat_ofNat (m : Nat) (h : m < 55296) : (Char.ofNat m).toNat = m := by
  unfold Char.ofNat
  rw [dif_pos (Or.inl (by omega))]
  rfl

theorem upper_toNat (c : Char) (h : 'A' ≤ c ∧ c ≤ 'Z') :
    65 ≤ c.toNat ∧ c.toNat ≤ 90 := ⟨h.1, h.2⟩

theorem lower_toNat (c : Char) (h : 'a' ≤ c ∧ c ≤ 'z') :
    97 ≤ c.toNat ∧ c.toNat ≤ 122 := ⟨h.1, h.2⟩

theorem char_le_of_toNat (c d : Char) (h : c.toNat ≤ d.toNat) : c ≤ d := h

theorem isSpaceCh_ofNat_false (m : Nat) (hm : 33 ≤ m) (hv : m < 55296) :
    isSpaceCh (Char.ofNat m) = false := by
  rcases hsp : isSpaceCh (Char.ofNat m) with _ | _
  · rfl
  · exfalso
    simp only [isSpaceCh, decide_eq_true_eq] at hsp
    rcases hsp with h1 | h1 | h1 | h1 | h1 | h1 <;>
      · have h2 := congrArg Char.toNat h1
        rw [char_toNat_ofNat m hv] at h2
        have h3 : m ≤ 32 := by rw [h2]; decide
        omega

theorem isUpperCh_ofNat_false (m : Nat) (hm : 91 ≤ m) (hv : m < 55296) :
    isUpperCh (Char.ofNat m) = false := by
  rcases hu : isUpperCh (Char.ofNat m) with _ | _
  · rfl
  · exfalso
    simp only [isUpperCh, decide_eq_true_eq] at hu
    have h2 : (Char.ofNat m).toNat ≤ 90 := hu.2
    rw [char_toNat_ofNat m hv] at h2
    omega

theorem isAlphaCh_ofNat_low (m : Nat) (h1 : 97 ≤ m) (h2 : m ≤ 122) :
    isAlphaCh (Char.ofNat m) = true := by
  simp only [isAlphaCh, decide_eq_true_eq]
  left
  have hv : (Char.ofNat m).toNat = m := char_toNat_ofNat m (by omega)
  constructor
  · show (97 : Nat) ≤ (Char.ofNat m).toNat
    omega
  · show (Char.ofNat m).toNat ≤ 122
    omega

theorem isAlphaCh_ofNat_up (m : Nat) (h1 : 65 ≤ m) (h2 : m ≤ 90) :
    isAlphaCh (Char.ofNat m) = true := by
  simp only [isAlphaCh, decide_eq_true_eq]
  right
  have hv : (Char.ofNat m).toNat = m := char_toNat_ofNat m (by omega)
  constructor
  · show (65 : Nat) ≤ (Char.ofNat m).toNat
    omega
  · show (Char.ofNat m).toNat ≤ 90
    omega

theorem isLower_ofNat_false (m : Nat) (h2 : m ≤ 96) (hv : m < 55296) :
    ('a' ≤ Char.ofNat m ∧ Char.ofNat m ≤ 'z') = False := by
  simp only [eq_iff_iff, iff_false]
  rintro ⟨ha, -⟩
  have h3 : 97 ≤ (Char.ofNat m).toNat := ha
  rw [char_toNat_ofNat m hv] at h3
  omega

theorem isUpper_of_isUpperCh (c : Char) (h : isUpperCh c = true) :
    65 ≤ c.toNat ∧ c.toNat ≤ 90 := by
  simp only [isUpperCh, decide_eq_true_eq] at h
  exact ⟨h.1, h.2⟩

theorem isAlphaCh_of_isUpperCh (c : Char) (h : isUpperCh c = true) :
    isAlphaCh c = true := by
  simp only [isUpperCh, decide_eq_true_eq] at h
  simp only [isAlphaCh, decide_eq_true_eq]
  right
  exact h

theorem isAlphaCh_of_not_space_aux (c : Char) (h : isSpaceCh c = true) :
    isAlphaCh c = false := by
  simp only [isSpaceCh, decide_eq_true_eq] at h
  rcases h with h | h | h | h | h | h <;> subst h <;> decide

theorem isSpaceCh_false_of_ge (c : Char) (h : 33 ≤ c.toNat) : isSpaceCh c = false := by
  rcases hs : isSpaceCh c with _ | _
  · rfl
  · exfalso
    simp only [isSpaceCh, decide_eq_true_eq] at hs
    rcases hs with h1 | h1 | h1 | h1 | h1 | h1 <;> subst h1 <;> revert h <;> decide

theorem not_lower_ofNat (m : Nat) (h2 : m ≤ 96) (hv : m < 55296) :
    ¬('a' ≤ Char.ofNat m ∧ Char.ofNat m ≤ 'z') := by
  rintro ⟨ha, -⟩
  have h3 : 97 ≤ (Char.ofNat m).toNat := ha
  rw [char_toNat_ofNat m hv] at h3
  omega

theorem not_upper_ofNat (m : Nat) (h2 : 91 ≤ m) (hv : m < 55296) :
    ¬('A' ≤ Char.ofNat m ∧ Char.ofNat m ≤ 'Z') := by
  rintro ⟨-, hz⟩
  have h3 : (Char.ofNat m).toNat ≤ 90 := hz
  rw [char_toNat_ofNat m hv] at h3
  omega

theorem lowChar_not_upper (c : Char) : isUpperCh (lowChar c) = false := by
  unfold lowChar
  split
  · next h =>
    have h1 : 65 ≤ c.toNat := h.1
    have h2 : c.toNat ≤ 90 := h.2
    exact isUpperCh_ofNat_false (c.toNat + 32) (by omega) (by omega)
  · next h =>
    rcases hu : isUpperCh c with _ | _
    · rfl
    · exact absurd (isUpper_of_isUpperCh c hu) h

theorem lowChar_alpha (c : Char) : isAlphaCh (lowChar c) = isAlphaCh c := by
  unfold lowChar
  split
  · next h =>
    have h1 : 65 ≤ c.toNat := h.1
    have h2 : c.toNat ≤ 90 := h.2
    rw [isAlphaCh_ofNat_low (c.toNat + 32) (by omega) (by omega)]
    have ha : isAlphaCh c = true := by
      simp only [isAlphaCh, decide_eq_true_eq]
      exact Or.inr h
    rw [ha]
  · rfl

theorem upChar_alpha (c : Char) : isAlphaCh (upChar c) = isAlphaCh c := by
  unfold upChar
  split
  · next h =>
    have h1 : 97 ≤ c.toNat := h.1
    have h2 : c.toNat ≤ 122 := h.2
    rw [isAlphaCh_ofNat_up (c.toNat - 32) (by omega) (by omega)]
    have ha : isAlphaCh c = true := by
      simp only [isAlphaCh, decide_eq_true_eq]
      exact Or.inl h
    rw [ha]
  · rfl

theorem lowChar_space (c : Char) : isSpaceCh (lowChar c) = isSpaceCh c := by
  unfold lowChar
  split
  · next h =>
    have h1 : 65 ≤ c.toNat := h.1
    have h2 : c.toNat ≤ 90 := h.2
    rw [isSpaceCh_ofNat_false (c.toNat + 32) (by omega) (by omega),
      isSpaceCh_false_of_ge c (by omega)]
  · rfl

theorem upChar_space (c : Char) : isSpaceCh (upChar c) = isSpaceCh c := by
  unfold upChar
  split
  · next h =>
    have h1 : 97 ≤ c.toNat := h.1
    have h2 : c.toNat ≤ 122 := h.2
    rw [isSpaceCh_ofNat_false (c.toNat - 32) (by omega) (by omega),
      isSpaceCh_false_of_ge c (by omega)]
  · rfl

theorem lowChar_lowChar (c : Char) : lowChar (lowChar c) = lowChar c := by
  unfold lowChar
  split
  · next h =>
    have h1 : 65 ≤ c.toNat := h.1
    have h2 : c.toNat ≤ 90 := h.2
    rw [if_neg (not_upper_ofNat (c.toNat + 32) (by omega) (by omega))]
  · rfl

theorem upChar_upChar (c : Char) : upChar (upChar c) = upChar c := by
  unfold upChar
  split
  · next h =>
    have h1 : 97 ≤ c.toNat := h.1
    have h2 : c.toNat ≤ 122 := h.2
    rw [if_neg (not_lower_ofNat (c.toNat - 32) (by omega) (by omega))]
  · rfl

/-- No two adjacent characters are both `[A-Z]` (so `[A-Z]{2,}` cannot match
anywhere, in particular not at the end). -/
def adjUpperFree : List Char → Bool
  | [] => true
  | [_] => true
  | c :: d :: rest => (!(isUpperCh c && isUpperCh d)) && adjUpperFree (d :: rest)

/-- No two adjacent `true` entries (used on `isSpaceCh` profiles: no two
adjacent whitespace characters). -/
def adjTrueFree : List Bool → Bool
  | [] => true
  | [_] => true
  | b :: c :: rest => (!(b && c)) && adjTrueFree (c :: rest)

theorem adjUpperFree_cons (x : Char) (ys : List Char)
    (h1 : adjUpperFree ys = true)
    (h2 : ∀ y, ys.head? = some y → (isUpperCh x && isUpperCh y) = false) :
    adjUpperFree (x :: ys) = true := by
  cases ys with
  | nil => rfl
  | cons y t =>
    simp only [adjUpperFree, Bool.and_eq_true, Bool.not_eq_eq_eq_not, Bool.not_true]
    exact ⟨by rw [h2 y rfl], h1⟩

theorem adjTrueFree_cons (x : Bool) (ys : List Bool)
    (h1 : adjTrueFree ys = true)
    (h2 : ∀ y, ys.head? = some y → (x && y) = false) :
    adjTrueFree (x :: ys) = true := by
  cases ys with
  | nil => rfl
  | cons y t =>
    simp only [adjTrueFree, Bool.and_eq_true, Bool.not_eq_eq_eq_not, Bool.not_true]
    exact ⟨by rw [h2 y rfl], h1⟩

theorem adjTrueFree_tail (x : Bool) (ys : List Bool)
    (h : adjTrueFree (x :: ys) = true) : adjTrueFree ys = true := by
  cases ys with
  | nil => rfl
  | cons y t =>
    simp only [adjTrueFree, Bool.and_eq_true] at h
    exact h.2

theorem adjTrueFree_pair (x y : Bool) (ys : List Bool)
    (h : adjTrueFree (x :: y :: ys) = true) : (x && y) = false := by
  simp only [adjTrueFree, Bool.and_eq_true, Bool.not_eq_eq_eq_not, Bool.not_true] at h
  exact h.1

theorem takeWhile_two (p : Char → Bool) (l : List Char)
    (h : 2 ≤ (l.takeWhile p).length) :
    ∃ x y rest, l = x :: y :: rest ∧ p x = true ∧ p y = true := by
  cases l with
  | nil => simp at h
  | cons x l2 =>
    rcases hp : p x with _ | _
    · simp [List.takeWhile_cons, hp] at h
    · cases l2 with
      | nil => simp [List.takeWhile_cons, hp] at h
      | cons y l3 =>
        rcases hq : p y with _ | _
        · simp [List.takeWhile_cons, hp, hq] at h
        · exact ⟨x, y, l3, rfl, hp, hq⟩

theorem adjUpperFree_append_pair (a : List Char) (y x : Char)
    (h : adjUpperFree (a ++ [y, x]) = true) : (isUpperCh y && isUpperCh x) = false := by
  induction a with
  | nil =>
    simp only [List.nil_append, adjUpperFree, Bool.and_eq_true,
      Bool.not_eq_eq_eq_not, Bool.not_true] at h
    exact h.1
  | cons c a2 ih =>
    rcases ha : a2 ++ [y, x] with _ | ⟨e, es⟩
    · exact absurd ha (by simp)
    · rw [List.cons_append, ha] at h
      simp only [adjUpperFree, Bool.and_eq_true] at h
      have h2 := h.2
      rw [← ha] at h2
      exact ih h2

theorem pyTitleGo_head_true_not_upper (l : List Char) (x : Char)
    (hx : (pyTitleGo true l).head? = some x) : isUpperCh x = false := by
  cases l with
  | nil => simp [pyTitleGo] at hx
  | cons c rest =>
    rcases ha : isAlphaCh c with _ | _
    · simp only [pyTitleGo, ha, Bool.false_eq_true, if_false, List.head?_cons,
        Option.some.injEq] at hx
      subst hx
      rcases hu : isUpperCh c with _ | _
      · rfl
      · exact absurd (isAlphaCh_of_isUpperCh c hu) (by rw [ha]; simp)
    · simp only [pyTitleGo, ha, if_true, List.head?_cons, Option.some.injEq] at hx
      subst hx
      exact lowChar_not_upper c

theorem pyTitleGo_adjFree (l : List Char) : ∀ b, adjUpperFree (pyTitleGo b l) = true := by
  induction l with
  | nil => intro b; rfl
  | cons c rest ih =>
    intro b
    rcases ha : isAlphaCh c with _ | _
    · simp only [pyTitleGo, ha, Bool.false_eq_true, if_false]
      refine adjUpperFree_cons c _ (ih false) ?_
      intro y hy
      have hcu : isUpperCh c = false := by
        rcases hu : isUpperCh c with _ | _
        · rfl
        · exact absurd (isAlphaCh_of_isUpperCh c hu) (by rw [ha]; simp)
      rw [hcu]
      rfl
    · simp only [pyTitleGo, ha, if_true]
      refine adjUpperFree_cons _ _ (ih true) ?_
      intro y hy
      rw [pyTitleGo_head_true_not_upper rest y hy]
      simp

theorem pyTitleGo_space_map (l : List Char) :
    ∀ b, (pyTitleGo b l).map isSpaceCh = l.map isSpaceCh := by
  induction l with
  | nil => intro b; rfl
  | cons c rest ih =>
    intro b
    rcases ha : isAlphaCh c with _ | _
    · simp only [pyTitleGo, ha, Bool.false_eq_true, if_false, List.map_cons, ih false]
    · simp only [pyTitleGo, ha, if_true, List.map_cons, ih true]
      rcases b with _ | _
      · simp only [Bool.false_eq_true, if_false, upChar_space]
      · simp only [if_true, lowChar_space]

theorem pyTitleGo_blank (l : List Char) (hb : ∀ c ∈ l, isSpaceCh c = true → c = ' ') :
    ∀ b, ∀ c ∈ pyTitleGo b l, isSpaceCh c = true → c = ' ' := by
  induction l with
  | nil => intro b c hc; simp [pyTitleGo] at hc
  | cons c rest ih =>
    intro b x hx hsx
    have hbrest : ∀ c ∈ rest, isSpaceCh c = true → c = ' ' := by
      intro y hy
      exact hb y (List.mem_cons_of_mem _ hy)
    rcases ha : isAlphaCh c with _ | _
    · simp only [pyTitleGo, ha, Bool.false_eq_true, if_false, List.mem_cons] at hx
      rcases hx with hx | hx
      · subst hx
        exact hb x (List.mem_cons_self _ _) hsx
      · exact ih hbrest false x hx hsx
    · simp only [pyTitleGo, ha, if_true, List.mem_cons] at hx
      rcases hx with hx | hx
      · exfalso
        have hcs : isSpaceCh c = false := by
          rcases hs : isSpaceCh c with _ | _
          · rfl
          · exact absurd (isAlphaCh_of_not_space_aux c hs) (by rw [ha]; simp)
        rcases b with _ | _
        · rw [if_neg (by simp : ¬(false = true))] at hx
          rw [hx, upChar_space, hcs] at hsx
          exact absurd hsx (by simp)
        · rw [if_pos rfl] at hx
          rw [hx, lowChar_space, hcs] at hsx
          exact absurd hsx (by simp)
      · exact ih hbrest true x hx hsx

theorem pyTitleGo_no_char (l : List Char) (p : Char) (hp : isAlphaCh p = false)
    (h : ∀ c ∈ l, c ≠ p) : ∀ b, ∀ c ∈ pyTitleGo b l, c ≠ p := by
  induction l with
  | nil => intro b c hc; simp [pyTitleGo] at hc
  | cons c rest ih =>
    intro b x hx
    have hrest : ∀ c ∈ rest, c ≠ p := by
      intro y hy
      exact h y (List.mem_cons_of_mem _ hy)
    rcases ha : isAlphaCh c with _ | _
    · simp only [pyTitleGo, ha, Bool.false_eq_true, if_false, List.mem_cons] at hx
      rcases hx with hx | hx
      · subst hx
        exact h x (List.mem_cons_self _ _)
      · exact ih hrest false x hx
    · simp only [pyTitleGo, ha, if_true, List.mem_cons] at hx
      rcases hx with hx | hx
      · intro hxp
        have : isAlphaCh x = true := by
          rcases b with _ | _
          · rw [hx, if_neg (by simp : ¬(false = true)), upChar_alpha, ha]
          · rw [hx, if_pos rfl, lowChar_alpha, ha]
        rw [hxp] at this
        rw [this] at hp
        exact absurd hp (by simp)
      · exact ih hrest true x hx

theorem pyTitleGo_idem (l : List Char) : ∀ b, pyTitleGo b (pyTitleGo b l) = pyTitleGo b l := by
  induction l with
  | nil => intro b; rfl
  | cons c rest ih =>
    intro b
    rcases ha : isAlphaCh c with _ | _
    · simp only [pyTitleGo, ha, Bool.false_eq_true, if_false]
      simp only [pyTitleGo, ha, Bool.false_eq_true, if_false, List.cons.injEq, true_and]
      exact ih false
    · simp only [pyTitleGo, ha, if_true]
      rcases b with _ | _
      · simp only [Bool.false_eq_true, if_false]
        simp only [pyTitleGo, upChar_alpha, ha, if_true, Bool.false_eq_true, if_false,
          List.cons.injEq]
        exact ⟨upChar_upChar c, ih true⟩
      · simp only [if_true]
        simp only [pyTitleGo, lowChar_alpha, ha, if_true, List.cons.injEq]
        exact ⟨lowChar_lowChar c, ih true⟩

theorem wsCollapseGo_true_head (l : List Char) :
    ∀ x, (wsCollapseGo true l).head? = some x → isSpaceCh x = false := by
  induction l with
  | nil => intro x hx; simp [wsCollapseGo] at hx
  | cons c rest ih =>
    intro x hx
    rcases hc : isSpaceCh c with _ | _
    · simp only [wsCollapseGo, hc, Bool.false_eq_true, if_false, List.head?_cons,
        Option.some.injEq] at hx
      subst hx
      exact hc
    · simp only [wsCollapseGo, hc, if_true] at hx
      exact ih x hx

theorem wsCollapseGo_adjFree (l : List Char) :
    ∀ b, adjTrueFree ((wsCollapseGo b l).map isSpaceCh) = true := by
  induction l with
  | nil => intro b; rfl
  | cons c rest ih =>
    intro b
    rcases hc : isSpaceCh c with _ | _
    · simp only [wsCollapseGo, hc, Bool.false_eq_true, if_false, List.map_cons]
      refine adjTrueFree_cons _ _ (ih false) ?_
      intro y hy
      simp
    · rcases b with _ | _
      · simp only [wsCollapseGo, hc, if_true, Bool.false_eq_true, if_false, List.map_cons]
        refine adjTrueFree_cons _ _ (ih true) ?_
        intro y hy
        rcases hh : (wsCollapseGo true rest).head? with _ | z
        · rw [List.head?_map, hh] at hy
          exact absurd hy (by simp)
        · rw [List.head?_map, hh] at hy
          have hy2 : isSpaceCh z = y := by
            simpa using hy
          rw [← hy2, wsCollapseGo_true_head rest z hh]
          simp
      · simp only [wsCollapseGo, hc, if_true]
        exact ih true

theorem wsCollapseGo_blank (l : List Char) :
    ∀ b, ∀ c ∈ wsCollapseGo b l, isSpaceCh c = true → c = ' ' := by
  induction l with
  | nil => intro b c hc; simp [wsCollapseGo] at hc
  | cons c rest ih =>
    intro b x hx hsx
    rcases hc : isSpaceCh c with _ | _
    · simp only [wsCollapseGo, hc, Bool.false_eq_true, if_false, List.mem_cons] at hx
      rcases hx with hx | hx
      · subst hx
        rw [hc] at hsx
        exact absurd hsx (by simp)
      · exact ih false x hx hsx
    · rcases b with _ | _
      · simp only [wsCollapseGo, hc, if_true, Bool.false_eq_true, if_false,
          List.mem_cons] at hx
        rcases hx with hx | hx
        · exact hx
        · exact ih true x hx hsx
      · simp only [wsCollapseGo, hc, if_true] at hx
        exact ih true x hx hsx

theorem wsCollapseGo_fixed (l : List Char) :
    ∀ b, adjTrueFree (l.map isSpaceCh) = true →
      (∀ c ∈ l, isSpaceCh c = true → c = ' ') →
      (b = true → ∀ x, l.head? = some x → isSpaceCh x = false) →
      wsCollapseGo b l = l := by
  induction l with
  | nil => intro b _ _ _; rfl
  | cons c rest ih =>
    intro b hadj hblank hhead
    have hblankrest : ∀ c ∈ rest, isSpaceCh c = true → c = ' ' := by
      intro y hy
      exact hblank y (List.mem_cons_of_mem _ hy)
    have hadjrest : adjTrueFree (rest.map isSpaceCh) = true :=
      adjTrueFree_tail _ _ hadj
    rcases hc : isSpaceCh c with _ | _
    · simp only [wsCollapseGo, hc, Bool.false_eq_true, if_false, List.cons.injEq, true_and]
      exact ih false hadjrest hblankrest (by intro h; exact absurd h (by simp))
    · rcases b with _ | _
      · simp only [wsCollapseGo, hc, if_true, Bool.false_eq_true, if_false, List.cons.injEq]
        constructor
        · exact (hblank c (List.mem_cons_self _ _) hc).symm
        · refine ih true hadjrest hblankrest ?_
          intro _ x hx
          cases rest with
          | nil => simp at hx
          | cons d r2 =>
            simp only [List.head?_cons, Option.some.injEq] at hx
            subst hx
            have hpair := adjTrueFree_pair _ _ _
              (by simpa only [List.map_cons] using hadj)
            rw [hc] at hpair
            simpa using hpair
      · exact absurd (hhead rfl c (by simp)) (by rw [hc]; simp)

theorem wsCollapse_fixed (l : List Char)
    (hadj : adjTrueFree (l.map isSpaceCh) = true)
    (hblank : ∀ c ∈ l, isSpaceCh c = true → c = ' ') :
    wsCollapse l = l :=
  wsCollapseGo_fixed l false hadj hblank (by intro h; exact absurd h (by simp))

theorem wsCollapseGo_subset (l : List Char) :
    ∀ b, ∀ c ∈ wsCollapseGo b l, c = ' ' ∨ c ∈ l := by
  induction l with
  | nil => intro b c hc; simp [wsCollapseGo] at hc
  | cons c rest ih =>
    intro b x hx
    rcases hc : isSpaceCh c with _ | _
    · simp only [wsCollapseGo, hc, Bool.false_eq_true, if_false, List.mem_cons] at hx
      rcases hx with hx | hx
      · exact Or.inr (by rw [hx]; exact List.mem_cons_self _ _)
      · rcases ih false x hx with h | h
        · exact Or.inl h
        · exact Or.inr (List.mem_cons_of_mem _ h)
    · rcases b with _ | _
      · simp only [wsCollapseGo, hc, if_true, Bool.false_eq_true, if_false,
          List.mem_cons] at hx
        rcases hx with hx | hx
        · exact Or.inl hx
        · rcases ih true x hx with h | h
          · exact Or.inl h
          · exact Or.inr (List.mem_cons_of_mem _ h)
      · simp only [wsCollapseGo, hc, if_true] at hx
        rcases ih true x hx with h | h
        · exact Or.inl h
        · exact Or.inr (List.mem_cons_of_mem _ h)

theorem mem_of_head_some (l : List Char) (x : Char) (h : l.head? = some x) : x ∈ l := by
  cases l with
  | nil => simp at h
  | cons c rest =>
    simp only [List.head?_cons, Option.some.injEq] at h
    subst h
    exact List.mem_cons_self _ _

theorem mem_of_getLast_some (l : List Char) (x : Char) (h : l.getLast? = some x) : x ∈ l := by
  have h2 : l.reverse.head? = some x := by rw [List.head?_reverse]; exact h
  exact List.mem_reverse.mp (mem_of_head_some _ _ h2)

theorem wsCollapseGo_ne_nil (l : List Char) :
    ∀ b c, c ∈ l → isSpaceCh c = false → wsCollapseGo b l ≠ [] := by
  induction l with
  | nil => intro b c hc; exact absurd hc (by simp)
  | cons d rest ih =>
    intro b c hc hcs
    rcases hd : isSpaceCh d with _ | _
    · simp [wsCollapseGo, hd]
    · rcases List.mem_cons.mp hc with h | h
      · rw [h, hd] at hcs
        exact absurd hcs (by simp)
      · rcases b with _ | _
        · simp only [wsCollapseGo, hd, if_true, Bool.false_eq_true, if_false]
          simp
        · simp only [wsCollapseGo, hd, if_true]
          exact ih true c h hcs

theorem wsCollapseGo_last (l : List Char)
    (hl : ∀ x, l.getLast? = some x → isSpaceCh x = false) :
    ∀ b x, (wsCollapseGo b l).getLast? = some x → isSpaceCh x = false := by
  induction l with
  | nil => intro b x hx; simp [wsCollapseGo] at hx
  | cons c rest ih =>
    intro b x hx
    by_cases hre : rest = []
    · subst hre
      have hc : isSpaceCh c = false := hl c (by simp)
      simp only [wsCollapseGo, hc, Bool.false_eq_true, if_false] at hx
      simp only [wsCollapseGo, List.getLast?_singleton, Option.some.injEq] at hx
      rw [← hx]
      exact hc
    · have hl2 : ∀ y, rest.getLast? = some y → isSpaceCh y = false := by
        intro y hy
        apply hl
        cases rest with
        | nil => exact absurd rfl hre
        | cons d r2 =>
          rw [List.getLast?_cons_cons]
          exact hy
      obtain ⟨y, hy⟩ : ∃ y, rest.getLast? = some y := by
        cases rest with
        | nil => exact absurd rfl hre
        | cons d r2 =>
          exact ⟨(d :: r2).getLast (by simp),
            List.getLast?_eq_getLast_of_ne_nil (by simp)⟩
      have hyn : isSpaceCh y = false := hl2 y hy
      have hymem : y ∈ rest := mem_of_getLast_some rest y hy
      rcases hc : isSpaceCh c with _ | _
      · simp only [wsCollapseGo, hc, Bool.false_eq_true, if_false] at hx
        rcases ho : wsCollapseGo false rest with _ | ⟨z, zs⟩
        · exact absurd ho (wsCollapseGo_ne_nil rest false y hymem hyn)
        · rw [ho, List.getLast?_cons_cons, ← ho] at hx
          exact ih hl2 false x hx
      · rcases b with _ | _
        · simp only [wsCollapseGo, hc, if_true, Bool.false_eq_true, if_false] at hx
          rcases ho : wsCollapseGo true rest with _ | ⟨z, zs⟩
          · exact absurd ho (wsCollapseGo_ne_nil rest true y hymem hyn)
          · rw [ho, List.getLast?_cons_cons, ← ho] at hx
            exact ih hl2 true x hx
        · simp only [wsCollapseGo, hc, if_true] at hx
          exact ih hl2 true x hx

theorem wsCollapse_head (l : List Char)
    (hh : ∀ x, l.head? = some x → isSpaceCh x = false) :
    ∀ x, (wsCollapse l).head? = some x → isSpaceCh x = false := by
  cases l with
  | nil => intro x hx; simp [wsCollapse, wsCollapseGo] at hx
  | cons c rest =>
    intro x hx
    have hc : isSpaceCh c = false := hh c rfl
    simp only [wsCollapse, wsCollapseGo, hc, Bool.false_eq_true, if_false,
      List.head?_cons, Option.some.injEq] at hx
    rw [← hx]
    exact hc

theorem dropWhile_head_false (p : Char → Bool) (l : List Char) :
    ∀ x, (l.dropWhile p).head? = some x → p x = false := by
  induction l with
  | nil => intro x hx; simp at hx
  | cons c rest ih =>
    intro x hx
    rcases hp : p c with _ | _
    · rw [List.dropWhile_cons, hp] at hx
      simp only [Bool.false_eq_true, if_false, List.head?_cons, Option.some.injEq] at hx
      rw [← hx]
      exact hp
    · rw [List.dropWhile_cons, hp] at hx
      simp only [if_true] at hx
      exact ih x hx

theorem pyStrip_prefix (l : List Char) :
    ∃ e, l.dropWhile isSpaceCh = pyStrip l ++ e := by
  refine ⟨((l.dropWhile isSpaceCh).reverse.takeWhile isSpaceCh).reverse, ?_⟩
  calc l.dropWhile isSpaceCh
      = ((l.dropWhile isSpaceCh).reverse).reverse := (List.reverse_reverse _).symm
    _ = (List.takeWhile isSpaceCh (l.dropWhile isSpaceCh).reverse ++
          List.dropWhile isSpaceCh (l.dropWhile isSpaceCh).reverse).reverse := by
        rw [List.takeWhile_append_dropWhile]
    _ = (List.dropWhile isSpaceCh (l.dropWhile isSpaceCh).reverse).reverse ++
          (List.takeWhile isSpaceCh (l.dropWhile isSpaceCh).reverse).reverse := by
        rw [List.reverse_append]
    _ = pyStrip l ++ ((l.dropWhile isSpaceCh).reverse.takeWhile isSpaceCh).reverse := rfl

theorem pyStrip_head (l : List Char) :
    ∀ x, (pyStrip l).head? = some x → isSpaceCh x = false := by
  intro x hx
  obtain ⟨e, he⟩ := pyStrip_prefix l
  apply dropWhile_head_false isSpaceCh l
  rw [he]
  rcases hs : pyStrip l with _ | ⟨c, cs⟩
  · rw [hs] at hx
    exact absurd hx (by simp)
  · rw [hs] at hx
    simp only [List.head?_cons, Option.some.injEq] at hx
    rw [List.cons_append, List.head?_cons, hx]

theorem pyStrip_last (l : List Char) :
    ∀ x, (pyStrip l).getLast? = some x → isSpaceCh x = false := by
  intro x hx
  have h2 : (pyStrip l).reverse.head? = some x := by
    rw [List.head?_reverse]
    exact hx
  unfold pyStrip at h2
  rw [List.reverse_reverse] at h2
  exact dropWhile_head_false isSpaceCh _ x h2

theorem pyStrip_fixed (l : List Char)
    (h1 : ∀ x, l.head? = some x → isSpaceCh x = false)
    (h2 : ∀ x, l.getLast? = some x → isSpaceCh x = false) :
    pyStrip l = l := by
  have hd : l.dropWhile isSpaceCh = l := by
    cases l with
    | nil => rfl
    | cons c rest =>
      rw [List.dropWhile_cons, h1 c rfl]
      simp
  have hr : l.reverse.dropWhile isSpaceCh = l.reverse := by
    rcases hlr : l.reverse with _ | ⟨c, rest⟩
    · rfl
    · have hc : isSpaceCh c = false := by
        apply h2
        rw [← List.head?_reverse, hlr]
        rfl
      rw [List.dropWhile_cons, hc]
      simp
  unfold pyStrip
  rw [hd, hr, List.reverse_reverse]

theorem pyStrip_subset (l : List Char) : ∀ c ∈ pyStrip l, c ∈ l := by
  intro c hc
  unfold pyStrip at hc
  rw [List.mem_reverse] at hc
  have h2 := (List.dropWhile_sublist (l := (l.dropWhile isSpaceCh).reverse)
    (p := isSpaceCh)).subset hc
  rw [List.mem_reverse] at h2
  exact (List.dropWhile_sublist (l := l) (p := isSpaceCh)).subset h2

theorem head_space_of_map (t u : List Char) (hm : t.map isSpaceCh = u.map isSpaceCh)
    (hu : ∀ y, u.head? = some y → isSpaceCh y = false) :
    ∀ x, t.head? = some x → isSpaceCh x = false := by
  intro x hx
  have h1 : (t.map isSpaceCh).head? = some (isSpaceCh x) := by
    rw [List.head?_map, hx]
    rfl
  rw [hm, List.head?_map] at h1
  rcases hu2 : u.head? with _ | y
  · rw [hu2] at h1
    exact absurd h1 (by simp)
  · rw [hu2] at h1
    simp only [Option.map_some', Option.some.injEq] at h1
    rw [← h1]
    exact hu y hu2

theorem last_space_of_map (t u : List Char) (hm : t.map isSpaceCh = u.map isSpaceCh)
    (hu : ∀ y, u.getLast? = some y → isSpaceCh y = false) :
    ∀ x, t.getLast? = some x → isSpaceCh x = false := by
  intro x hx
  have hmr : t.reverse.map isSpaceCh = u.reverse.map isSpaceCh := by
    rw [List.map_reverse, List.map_reverse, hm]
  have hur : ∀ y, u.reverse.head? = some y → isSpaceCh y = false := by
    intro y hy
    rw [List.head?_reverse] at hy
    exact hu y hy
  apply head_space_of_map t.reverse u.reverse hmr hur
  rw [List.head?_reverse]
  exact hx

theorem removeParenEnd_id (l : List Char) (h : ∀ c ∈ l, c ≠ ')') :
    removeParenEnd false l = l := by
  unfold removeParenEnd
  dsimp only
  rcases hr : l.reverse with _ | ⟨x, rest⟩
  · rfl
  · have hx : x ∈ l := by
      rw [← List.mem_reverse, hr]
      exact List.mem_cons_self _ _
    rw [if_neg (by simp : ¬(false = true))]
    show (if x = ')' then removeParenEndCore rest.reverse l else l) = l
    rw [if_neg (h x hx)]

theorem removeMarkCapsEnd_id (mark : Char) (sb : Bool) (l : List Char)
    (h : adjUpperFree l = true) : removeMarkCapsEnd mark sb l = l := by
  unfold removeMarkCapsEnd
  dsimp only
  rw [if_neg]
  intro h2
  obtain ⟨x, y, rest, hrev, hux, huy⟩ := takeWhile_two _ _ h2
  have hl : l = rest.reverse ++ [y, x] := by
    have h3 := congrArg List.reverse hrev
    rw [List.reverse_reverse] at h3
    rw [h3]
    simp
  rw [hl] at h
  have h4 := adjUpperFree_append_pair rest.reverse y x h
  rw [hux, huy] at h4
  exact absurd h4 (by simp)

theorem removeMarkCapsEnd_subset (mark : Char) (sb : Bool) (l : List Char) :
    ∀ c ∈ removeMarkCapsEnd mark sb l, c ∈ l := by
  intro c hc
  unfold removeMarkCapsEnd at hc
  dsimp only at hc
  split at hc
  · split at hc
    · next x rest heq =>
      have hrest : ∀ z ∈ rest, z ∈ l := by
        intro z hz
        have h1 : z ∈ (l.reverse.drop
            (l.reverse.takeWhile isUpperCh).length).dropWhile isSpaceCh := by
          rw [heq]
          exact List.mem_cons_of_mem _ hz
        have h2 := (List.dropWhile_sublist (p := isSpaceCh)
          (l := l.reverse.drop (l.reverse.takeWhile isUpperCh).length)).subset h1
        have h3 := (List.drop_sublist (l.reverse.takeWhile isUpperCh).length
          l.reverse).subset h2
        exact List.mem_reverse.mp h3
      split at hc
      · split at hc
        · have h1 := List.mem_reverse.mp hc
          have h2 := (List.dropWhile_sublist (p := isSpaceCh) (l := rest)).subset h1
          exact hrest c h2
        · exact hrest c (List.mem_reverse.mp hc)
      · exact hc
    · exact hc
  · exact hc

/-- The C6 property as stated by the spec: all three cleaners are idempotent
on every string. -/
def c6Claim : Prop :=
  (∀ s, cleanUniversityName (cleanUniversityName s) = cleanUniversityName s) ∧
  (∀ s, cleanCountryName (cleanCountryName s) = cleanCountryName s) ∧
  (∀ s, cleanCityName (cleanCityName s) = cleanCityName s)

/-- C6 counterexample: none of the three cleaners is idempotent.
`clean_university_name("MIT (Cambridge) (USA)") = "Mit (cambridge)"`, which a
second pass shortens to `"Mit"` (only the last trailing parenthetical is
removed per pass); `clean_country_name("South Korea") = "Republic of Korea"`,
which a second pass title-cases to `"Republic Of Korea"` (mapping values are
not fixed points of the final `.title()`); and
`clean_city_name("Cambridge (MA) (USA)") = "Cambridge (Ma)"`, which a second
pass shortens to `"Cambridge"`. -/
theorem c6_counterexample :
    cleanUniversityName (cleanUniversityName ("MIT (Cambridge) (USA)")) ≠
      cleanUniversityName ("MIT (Cambridge) (USA)") ∧
    cleanCountryName (cleanCountryName ("South Korea")) ≠
      cleanCountryName ("South Korea") ∧
    cleanCityName (cleanCityName ("Cambridge (MA) (USA)")) ≠
      cleanCityName ("Cambridge (MA) (USA)") ∧
    ¬ c6Claim := by
  refine ⟨by decide, by decide, by decide, ?_⟩
  intro hcl
  exact absurd (hcl.2.1 ("South Korea")) (by decide)

/-- C6 amended: `clean_city_name` is idempotent on every input containing no
`')'` (the trailing-parenthetical rule removes only the last parenthetical,
so stacked parentheticals break idempotence in general; with no `)` in the
input that rule never fires).  The second pass is the identity on the first
pass's output: the output contains no `)`; `str.title()` output has no two
adjacent capitals, so `,[A-Z]{2,}$` cannot match; whitespace is already
stripped and collapsed; and `str.title()` is idempotent.  The university and
country cleaners are not idempotent even on such inputs (see the
counterexample, whose country witness `"South Korea"` has no `)`). -/
theorem c6_amended (s : String) (h : ∀ c ∈ s.data, c ≠ ')') :
    cleanCityName (cleanCityName s) = cleanCityName s := by
  have hparen1 : removeParenEnd false s.data = s.data := removeParenEnd_id _ h
  have h2 : ∀ c ∈ removeMarkCapsEnd ',' false s.data, c ≠ ')' := by
    intro c hc
    exact h c (removeMarkCapsEnd_subset ',' false s.data c hc)
  have h3 : ∀ c ∈ pyStrip (removeMarkCapsEnd ',' false s.data), c ≠ ')' := by
    intro c hc
    exact h2 c (pyStrip_subset _ c hc)
  have h4 : ∀ c ∈ wsCollapse (pyStrip (removeMarkCapsEnd ',' false s.data)), c ≠ ')' := by
    intro c hc
    rcases wsCollapseGo_subset _ false c hc with h5 | h5
    · rw [h5]
      decide
    · exact h3 c h5
  set u := wsCollapse (pyStrip (removeMarkCapsEnd ',' false s.data)) with hu
  set t := pyTitle u with ht
  have h5 : ∀ c ∈ t, c ≠ ')' := pyTitleGo_no_char u ')' (by decide) h4 false
  have hadjU : adjUpperFree t = true := pyTitleGo_adjFree u false
  have hmap : t.map isSpaceCh = u.map isSpaceCh := pyTitleGo_space_map u false
  have hhu : ∀ x, u.head? = some x → isSpaceCh x = false :=
    wsCollapse_head _ (pyStrip_head _)
  have hlu : ∀ x, u.getLast? = some x → isSpaceCh x = false :=
    wsCollapseGo_last _ (pyStrip_last _) false
  have hht : ∀ x, t.head? = some x → isSpaceCh x = false :=
    head_space_of_map t u hmap hhu
  have hlt : ∀ x, t.getLast? = some x → isSpaceCh x = false :=
    last_space_of_map t u hmap hlu
  have hstrip : pyStrip t = t := pyStrip_fixed t hht hlt
  have hadjT : adjTrueFree (t.map isSpaceCh) = true := by
    rw [hmap]
    exact wsCollapseGo_adjFree _ false
  have hblankU : ∀ c ∈ u, isSpaceCh c = true → c = ' ' := wsCollapseGo_blank _ false
  have hblankT : ∀ c ∈ t, isSpaceCh c = true → c = ' ' := pyTitleGo_blank u hblankU false
  have hcol : wsCollapse t = t := wsCollapse_fixed t hadjT hblankT
  have htt : pyTitle t = t := pyTitleGo_idem u false
  have hfirst : cleanCityName s = String.mk t := by
    unfold cleanCityName
    dsimp only
    rw [hparen1]
  rw [hfirst]
  show String.mk (pyTitle (wsCollapse (pyStrip (removeMarkCapsEnd ',' false
      (removeParenEnd false t))))) = String.mk t
  rw [removeParenEnd_id t h5, removeMarkCapsEnd_id ',' false t hadjU, hstrip, hcol, htt]

/-- Witness for C6 amended at a messy paren-free city string. -/
theorem c6_witness :
    (∀ c ∈ ("  new   york city ").data, c ≠ ')') ∧
    cleanCityName (cleanCityName ("  new   york city ")) =
      cleanCityName ("  new   york city ") :=
  ⟨by decide, c6_amended ("  new   york city ") (by decide)⟩
